import Mathlib

/-!
Verification of the `merge.py` panel-merging pipeline.

Python strings are modelled as `List Char` (named `Str` below); Python
`None`-or-string cell values as `Option Str`; code that can raise as
`Except Str`.  Machine floats only ever flow through `float(...)` parses and
comparisons here, so they are modelled as `ℚ` with `NaN`/missing folded into
`Option` (noted at each definition).  Each definition is translated from
`src/merge.py` (or from the Python 3.11 standard library it calls, for
`urllib.parse`, `json.loads`, `int`/`float` coercion and `pandas` helpers).
-/

/-- Python `str`, modelled as a list of characters. -/
abbrev Str := List Char

/-- Embed a Lean string literal as a `Str`. -/
def ofS (s : String) : Str := s.data

/-- Python whitespace characters recognised by `str.strip()` (ASCII subset). -/
def pyWS (c : Char) : Bool :=
  c = ' ' || c = '\t' || c = '\n' || c = '\x0d' || c = '\x0b' || c = '\x0c'

/-- Python `str.strip()` (ASCII-whitespace subset). -/
def pyStrip (l : Str) : Str :=
  ((l.dropWhile pyWS).reverse.dropWhile pyWS).reverse

/-- ASCII lowercase conversion for one character, modelling Python
`str.lower()` on ASCII input (non-ASCII characters pass through). -/
def pyLowerChar (c : Char) : Char :=
  if 'A' ≤ c ∧ c ≤ 'Z' then Char.ofNat (c.toNat + 32) else c

/-- Python `str.lower()` (ASCII subset). -/
def lowerStr (l : Str) : Str := l.map pyLowerChar

/-- Python `path.rstrip("/")`: remove every trailing slash. -/
def rstripSlash (l : Str) : Str :=
  (l.reverse.dropWhile (· = '/')).reverse

/-- `p` is a prefix of `l` (Python `str.startswith`). -/
def hasPfx : Str → Str → Bool
  | [], _ => true
  | _ :: _, [] => false
  | p :: ps, c :: cs => p = c && hasPfx ps cs

/-- ASCII decimal digit test (Python `\d` on ASCII input). -/
def isDig (c : Char) : Bool := '0' ≤ c && c ≤ '9'

/-- ASCII letter test (Python `c.isascii() and c.isalpha()`). -/
def isAsciiAlpha (c : Char) : Bool :=
  ('a' ≤ c && c ≤ 'z') || ('A' ≤ c && c ≤ 'Z')

/-! ### Wayback-wrapper regexes (`merge.py` lines 10, 32, 44)

`WAYBACK_ANY_RE = /web/\d{14}/(https?://.+)` and
`WAYBACK_TS_RE = /web/(\d{14})/`, used with `re.search` (leftmost match).
`.` does not match a newline, and `.+` is greedy, so group 1 of the first
regex extends to the first newline in the input or to its end. -/

/-- Attempt to match `WAYBACK_ANY_RE` anchored at the head of `l`,
returning group 1 (the unwrapped `http(s)://...` URL) on success. -/
def waybackAnyAt (l : Str) : Option Str :=
  if hasPfx (ofS "/web/") l then
    let rest := l.drop 5
    let ds := rest.take 14
    if ds.length = 14 ∧ ds.all isDig ∧ hasPfx (ofS "/") (rest.drop 14) then
      let tail := rest.drop 15
      if hasPfx (ofS "https://") tail then
        let body := (tail.drop 8).takeWhile (· ≠ '\n')
        if body = [] then none else some (ofS "https://" ++ body)
      else if hasPfx (ofS "http://") tail then
        let body := (tail.drop 7).takeWhile (· ≠ '\n')
        if body = [] then none else some (ofS "http://" ++ body)
      else none
    else none
  else none

/-- `re.search` with `WAYBACK_ANY_RE`: try every start position left to
right, returning group 1 of the first match. -/
def searchWaybackAny : Str → Option Str
  | [] => none
  | c :: cs =>
    match waybackAnyAt (c :: cs) with
    | some g => some g
    | none => searchWaybackAny cs

/-- Attempt to match `WAYBACK_TS_RE` at the head of `l`, returning the
14-digit timestamp (group 1). -/
def waybackTsAt (l : Str) : Option Str :=
  if hasPfx (ofS "/web/") l then
    let rest := l.drop 5
    let ds := rest.take 14
    if ds.length = 14 ∧ ds.all isDig ∧ hasPfx (ofS "/") (rest.drop 14) then
      some ds
    else none
  else none

/-- `re.search` with `WAYBACK_TS_RE`. -/
def searchWaybackTs : Str → Option Str
  | [] => none
  | c :: cs =>
    match waybackTsAt (c :: cs) with
    | some g => some g
    | none => searchWaybackTs cs

/-- `unwrap_wayback` (`merge.py` 34-42): non-strings map to `None`;
otherwise replace an archive-wrapped URL by regex group 1, else keep it. -/
def unwrap_wayback (url : Option Str) : Option Str :=
  match url with
  | none => none
  | some s =>
    match searchWaybackAny s with
    | some g => some g
    | none => some s

/-! ### Dates

A calendar date is encoded as the natural number `y*10000 + m*100 + d`;
for in-range months/days this ordering agrees with temporal order, which is
what `min` over `pandas` timestamps uses. -/

/-- Gregorian leap-year test. -/
def isLeap (y : Nat) : Bool := y % 4 = 0 && (y % 100 ≠ 0 || y % 400 = 0)

/-- Days in a month of the Gregorian calendar. -/
def daysInMonth (y m : Nat) : Nat :=
  if m = 2 then (if isLeap y then 29 else 28)
  else if m = 4 ∨ m = 6 ∨ m = 9 ∨ m = 11 then 30
  else 31

/-- Numeric value of a digit list (most significant first). -/
def digitsToNat (l : Str) : Nat :=
  l.foldl (fun acc c => acc * 10 + (c.toNat - '0'.toNat)) 0

/-- `pd.to_datetime(s, format="%Y%m%d")` on an 8-character digit string:
`some (y*10000 + m*100 + d)` if the digits form a valid calendar date,
`none` when pandas would raise.  (pandas' additional `Timestamp`
range limit, years outside 1677-2262, is not modelled.) -/
def toDatetimeYmd (l : Str) : Option Nat :=
  if l.length = 8 ∧ l.all isDig then
    let y := digitsToNat (l.take 4)
    let m := digitsToNat ((l.drop 4).take 2)
    let d := digitsToNat (l.drop 6)
    if 1 ≤ m ∧ m ≤ 12 ∧ 1 ≤ d ∧ d ≤ daysInMonth y m then
      some (y * 10000 + m * 100 + d)
    else none
  else none

/-- Left-pad the decimal digits of `n` to width `w`. -/
def padNat (w n : Nat) : Str :=
  let ds := (Nat.toDigits 10 n)
  List.replicate (w - ds.length) '0' ++ ds

/-- `date.isoformat()` for an encoded date: `YYYY-MM-DD`. -/
def isoOfDate (n : Nat) : Str :=
  padNat 4 (n / 10000) ++ ofS "-" ++ padNat 2 (n / 100 % 100) ++ ofS "-" ++ padNat 2 (n % 100)

/-- `extract_snapshot_from_url(*urls)` (`merge.py` 46-56).  Non-string
candidates are skipped; on the first candidate whose URL contains a
`/web/<14 digits>/` timestamp, the first 8 digits become `snapshot_day`
and are parsed with `pd.to_datetime(..., format="%Y%m%d")` — which RAISES
(modelled as `.error`) when they are not a valid date.  If no candidate
matches, `(None, None)` is returned. -/
def extract_snapshot_from_url : List (Option Str) → Except Str (Option Str × Option Str)
  | [] => .ok (none, none)
  | none :: rest => extract_snapshot_from_url rest
  | some u :: rest =>
    match searchWaybackTs u with
    | some ts =>
      let day := ts.take 8
      match toDatetimeYmd day with
      | some d => .ok (some day, some (isoOfDate d))
      | none => .error (ofS "ValueError: time data does not match format %Y%m%d")
    | none => extract_snapshot_from_url rest

/-! ### `urllib.parse` model (Python 3.11 `urlsplit`/`urlparse`/`urlunsplit`)

Modelled faithfully for ASCII input, with two simplifications noted in the
doc comments: the NFKC netloc check and the validation of a *bracketed*
host's contents (both raise only for exotic hosts) are omitted; the
bracket-mismatch `ValueError` is modelled. -/

/-- The scheme characters of `urllib.parse.scheme_chars`. -/
def isSchemeChar (c : Char) : Bool :=
  isAsciiAlpha c || isDig c || c = '+' || c = '-' || c = '.'

/-- `url.lstrip(_WHATWG_C0_CONTROL_OR_SPACE)`: drop leading C0 controls and
spaces (code points `0x00`-`0x20`). -/
def lstripC0 (l : Str) : Str := l.dropWhile (fun c => c.toNat ≤ 32)

/-- Removal of `_UNSAFE_URL_BYTES_TO_REMOVE` (`\t`, `\r`, `\n`). -/
def removeUnsafe (l : Str) : Str :=
  l.filter (fun c => ¬(c = '\t' ∨ c = '\x0d' ∨ c = '\n'))

/-- Split at the first occurrence of `c`: `some (before, after)` with `c`
itself dropped (Python `url.split(c, 1)`), or `none` if absent. -/
def splitAtFirst (c : Char) : Str → Option (Str × Str)
  | [] => none
  | x :: xs =>
    if x = c then some ([], xs)
    else
      match splitAtFirst c xs with
      | some (a, b) => some (x :: a, b)
      | none => none

/-- Scheme detection of `urlsplit`: if the text before the first `:` is a
nonempty run of scheme characters starting with an ASCII letter, return the
lowercased scheme and the rest; otherwise no scheme. -/
def schemeSplit (l : Str) : Str × Str :=
  match splitAtFirst ':' l with
  | some (pre, post) =>
    if pre ≠ [] ∧ pre.all isSchemeChar ∧ isAsciiAlpha (pre.headD ' ') then
      (lowerStr pre, post)
    else ([], l)
  | none => ([], l)

/-- A netloc delimiter (`_splitnetloc` scans for `/`, `?`, `#`). -/
def isNetlocDelim (c : Char) : Bool := c = '/' || c = '?' || c = '#'

/-- The five components of `urlsplit` / six of `urlparse` (params split out). -/
structure UrlParts where
  scheme : Str
  netloc : Str
  path : Str
  params : Str
  query : Str
  fragment : Str
deriving Repr, DecidableEq

/-- The netloc extraction of `urlsplit`: when the remainder begins with
`//`, the netloc runs to the first `/`, `?` or `#` (`_splitnetloc`). -/
def netlocSplit (rest : Str) : Str × Str :=
  if hasPfx (ofS "//") rest then
    ((rest.drop 2).takeWhile (fun c => ¬ isNetlocDelim c),
     (rest.drop 2).dropWhile (fun c => ¬ isNetlocDelim c))
  else ([], rest)

/-- `url.split("#", 1)` when a fragment marker is present. -/
def fragSplit (l : Str) : Str × Str :=
  match splitAtFirst '#' l with
  | some (a, b) => (a, b)
  | none => (l, [])

/-- `url.split("?", 1)` when a query marker is present. -/
def querySplit (l : Str) : Str × Str :=
  match splitAtFirst '?' l with
  | some (a, b) => (a, b)
  | none => (l, [])

/-- The bracket-mismatch test of `urlsplit` on a netloc. -/
def bracketMismatch (netloc : Str) : Prop :=
  ('[' ∈ netloc ∧ ']' ∉ netloc) ∨ (']' ∈ netloc ∧ '[' ∉ netloc)

instance (netloc : Str) : Decidable (bracketMismatch netloc) := by
  unfold bracketMismatch
  infer_instance

/-- `urllib.parse.urlsplit` (params left inside `path`; `query`/`fragment`
split off; bracket-mismatch netlocs raise `ValueError`). -/
def pyUrlsplit (url : Str) : Except Str UrlParts :=
  let u := removeUnsafe (lstripC0 url)
  let sr := schemeSplit u
  let nr := netlocSplit sr.2
  if bracketMismatch nr.1 then
    .error (ofS "ValueError: Invalid IPv6 URL")
  else
    let fr := fragSplit nr.2
    let qr := querySplit fr.1
    .ok ⟨sr.1, nr.1, qr.1, [], qr.2, fr.2⟩

/-- `urllib.parse.uses_params` membership. -/
def usesParams (s : Str) : Bool :=
  [ofS "", ofS "ftp", ofS "hdl", ofS "prospero", ofS "http", ofS "imap",
   ofS "https", ofS "shttp", ofS "rtsp", ofS "rtsps", ofS "rtspu",
   ofS "sip", ofS "sips", ofS "mms", ofS "sftp", ofS "tel"].contains s

/-- `urllib.parse.uses_netloc` membership. -/
def usesNetloc (s : Str) : Bool :=
  [ofS "", ofS "ftp", ofS "http", ofS "gopher", ofS "nntp", ofS "telnet",
   ofS "imap", ofS "wais", ofS "file", ofS "mms", ofS "https", ofS "shttp",
   ofS "snews", ofS "prospero", ofS "rtsp", ofS "rtsps", ofS "rtspu",
   ofS "rsync", ofS "svn", ofS "svn+ssh", ofS "sftp", ofS "nfs", ofS "git",
   ofS "git+ssh", ofS "ws", ofS "wss"].contains s

/-- `urllib.parse._splitparams`: split `;params` out of the last path
segment (or out of the whole path when it has no `/`). -/
def splitParams (l : Str) : Str × Str :=
  if '/' ∈ l then
    let revSeg := l.reverse.takeWhile (· ≠ '/')
    let seg := revSeg.reverse
    let pre := (l.reverse.dropWhile (· ≠ '/')).reverse
    match splitAtFirst ';' seg with
    | some (a, b) => (pre ++ a, b)
    | none => (l, [])
  else
    match splitAtFirst ';' l with
    | some (a, b) => (a, b)
    | none => (l, [])

/-- `urllib.parse.urlparse`: `urlsplit` plus the params split. -/
def pyUrlparse (url : Str) : Except Str UrlParts := do
  let p ← pyUrlsplit url
  if usesParams p.scheme ∧ ';' ∈ p.path then
    let pr := splitParams p.path
    pure { p with path := pr.1, params := pr.2 }
  else
    pure p

/-- `urllib.parse.urlunsplit` for components with empty query and fragment
(the only way `merge.py` calls it, via `urlunparse` with empty params). -/
def pyUrlunsplit (scheme netloc path : Str) : Str :=
  let url :=
    if netloc ≠ [] ∨ (scheme ≠ [] ∧ usesNetloc scheme ∧ ¬ hasPfx (ofS "//") path) then
      let p1 := if path ≠ [] ∧ ¬ hasPfx (ofS "/") path then '/' :: path else path
      ofS "//" ++ netloc ++ p1
    else path
  if scheme ≠ [] then scheme ++ ':' :: url else url

/-- `normalize_url` (`merge.py` 65-81): unwrap the wayback wrapper, map
non-strings and blank strings to `None`, then parse and rebuild with
lowercased scheme and host, the path stripped of trailing slashes, and
params, query and fragment dropped. -/
def normalize_url (url : Option Str) : Except Str (Option Str) :=
  match unwrap_wayback url with
  | none => .ok none
  | some s =>
    if pyStrip s = [] then .ok none
    else do
      let p ← pyUrlparse s
      .ok (some (pyUrlunsplit (lowerStr p.scheme) (lowerStr p.netloc) (rstripSlash p.path)))

/-- `compute_tool_id` (`merge.py` 83-87): the canonical internal link if it
is truthy (non-`None`, nonempty), else the canonical external link. -/
def compute_tool_id (internal_link external_link : Option Str) : Except Str (Option Str) := do
  let internal ← normalize_url internal_link
  match internal with
  | some s => if s ≠ [] then pure (some s) else normalize_url external_link
  | none => normalize_url external_link

/-! ### Scalar coercion (`merge.py` 91-110)

A cell value reaching `safe_int`/`safe_float` is a Python scalar: missing
(`None`/`NaN`), an int, a float, or a string.  Finite floats are modelled
as `ℚ`; the non-finite floats produced by `float("nan")`/`float("inf")`
make `int(...)` raise, and are mapped to `none` where they arise. -/

/-- A Python scalar cell value. -/
inductive PyVal where
  | vNone
  | vNaN
  | vInt (n : ℤ)
  | vFloat (q : ℚ)
  | vStr (s : Str)
deriving Repr, DecidableEq

/-- `pd.isna` on a scalar. -/
def pdIsna : PyVal → Bool
  | .vNone => true
  | .vNaN => true
  | _ => false

/-- Greedy run of ASCII digits in which single underscores may appear
between digits (CPython numeric literals): returns the digits with
underscores removed, and the unconsumed rest. -/
def digRun : Str → Str × Str
  | [] => ([], [])
  | c :: '_' :: d :: ds =>
    if isDig c then
      if isDig d then
        let r := digRun (d :: ds)
        (c :: r.1, r.2)
      else (c :: [], '_' :: d :: ds)
    else ([], c :: '_' :: d :: ds)
  | c :: cs =>
    if isDig c then
      let r := digRun cs
      (c :: r.1, r.2)
    else ([], c :: cs)

/-- CPython `int(s)` on a string: optional whitespace and sign, then a
nonempty digit run (underscore separators allowed); anything else raises
(`none`). -/
def pyParseInt (s : Str) : Option ℤ :=
  let t := pyStrip s
  let sgn : ℤ × Str :=
    match t with
    | '+' :: r => (1, r)
    | '-' :: r => (-1, r)
    | r => (1, r)
  let dr := digRun sgn.2
  if dr.1 ≠ [] ∧ dr.2 = [] then some (sgn.1 * (digitsToNat dr.1 : ℤ)) else none

/-- CPython `float(s)` restricted to finite results: optional whitespace
and sign, then `digits[.digits][e[sign]digits]` (with at least one mantissa
digit; underscore separators allowed).  `inf`/`infinity`/`nan` parse in
CPython but produce non-finite floats on which `int()` raises, so they are
folded into `none` here, as are outright parse failures. -/
def pyParseFloat (s : Str) : Option ℚ :=
  let t := lowerStr (pyStrip s)
  let sgn : ℤ × Str :=
    match t with
    | '+' :: r => (1, r)
    | '-' :: r => (-1, r)
    | r => (1, r)
  if sgn.2 = ofS "inf" ∨ sgn.2 = ofS "infinity" ∨ sgn.2 = ofS "nan" then none
  else
    let ip := digRun sgn.2
    let fp : Str × Str :=
      match ip.2 with
      | '.' :: r => digRun r
      | r => ([], r)
    if ip.1 = [] ∧ fp.1 = [] then none
    else
      let mn : ℤ := sgn.1 * ((digitsToNat ip.1 * 10 ^ fp.1.length + digitsToNat fp.1 : ℕ) : ℤ)
      let md : ℕ := 10 ^ fp.1.length
      match fp.2 with
      | [] => some (mkRat mn md)
      | 'e' :: r =>
        let esgn : Bool × Str :=
          match r with
          | '+' :: r2 => (true, r2)
          | '-' :: r2 => (false, r2)
          | r2 => (true, r2)
        let ep := digRun esgn.2
        if ep.1 ≠ [] ∧ ep.2 = [] then
          let e := digitsToNat ep.1
          some (if esgn.1 then mkRat (mn * 10 ^ e) md else mkRat mn (md * 10 ^ e))
        else none
      | _ => none

/-- Truncation toward zero, what `int()` applied to a float does
(`Int.tdiv` is T-division, so `num / den` truncates toward zero). -/
def ratTruncToZero (q : ℚ) : ℤ := Int.tdiv q.num (q.den : ℤ)

/-- CPython `int(v)` on a scalar (`none` models a raise). -/
def pyIntOfVal : PyVal → Option ℤ
  | .vInt n => some n
  | .vFloat q => some (ratTruncToZero q)
  | .vStr s => pyParseInt s
  | .vNone => none
  | .vNaN => none

/-- CPython `float(v)` on a scalar, finite results only (`none` models a
raise or a non-finite result; see `pyParseFloat`). -/
def pyFloatOfVal : PyVal → Option ℚ
  | .vInt n => some (n : ℚ)
  | .vFloat q => some q
  | .vStr s => pyParseFloat s
  | .vNone => none
  | .vNaN => none

/-- `safe_int` (`merge.py` 91-100): `None` on missing/NaN, else `int(v)`,
else `int(float(v))`, else `None`; never raises. -/
def safe_int (v : PyVal) : Option ℤ :=
  if pdIsna v then none
  else
    match pyIntOfVal v with
    | some n => some n
    | none =>
      match pyFloatOfVal v with
      | some q => some (ratTruncToZero q)
      | none => none

/-- `safe_float` (`merge.py` 104-110): `None` on missing/NaN or parse
failure, else `float(v)` (non-finite results folded into `none`, which also
matches how the merge's sort and CSV output treat `NaN`). -/
def safe_float (v : PyVal) : Option ℚ :=
  if pdIsna v then none else pyFloatOfVal v

/-! ### JSON (`json.loads` and `parse_json`, `merge.py` 113-119) -/

/-- A decoded JSON value.  `special` covers the non-finite number tokens
(`NaN`, `Infinity`, `-Infinity`) that `json.loads` accepts by default. -/
inductive Json where
  | null
  | jbool (b : Bool)
  | num (q : ℚ)
  | special (s : Str)
  | str (s : Str)
  | arr (items : List Json)
  | obj (fields : List (Str × Json))
deriving Repr

instance : Inhabited Json := ⟨Json.null⟩

/-- JSON whitespace. -/
def jsonWS (c : Char) : Bool := c = ' ' || c = '\t' || c = '\n' || c = '\x0d'

/-- Skip JSON whitespace. -/
def skipWS (l : Str) : Str := l.dropWhile jsonWS

/-- Hex digit value. -/
def hexVal (c : Char) : Option Nat :=
  if isDig c then some (c.toNat - '0'.toNat)
  else if 'a' ≤ c ∧ c ≤ 'f' then some (c.toNat - 'a'.toNat + 10)
  else if 'A' ≤ c ∧ c ≤ 'F' then some (c.toNat - 'A'.toNat + 10)
  else none

/-- JSON string body parser (after the opening quote): the standard
escapes and `\uXXXX` (code points Lean's `Char` cannot hold fall back to
`Char.ofNat`'s default), raw control characters rejected. -/
def parseJStr : Str → Option (Str × Str)
  | [] => none
  | '"' :: r => some ([], r)
  | '\\' :: 'u' :: a :: b :: c :: d :: rest =>
    match hexVal a, hexVal b, hexVal c, hexVal d with
    | some ha, some hb, some hc, some hd =>
      match parseJStr rest with
      | some (s, r2) => some (Char.ofNat (((ha * 16 + hb) * 16 + hc) * 16 + hd) :: s, r2)
      | none => none
    | _, _, _, _ => none
  | '\\' :: e :: rest =>
    let c? : Option Char :=
      if e = '"' then some '"' else if e = '\\' then some '\\'
      else if e = '/' then some '/' else if e = 'b' then some '\x08'
      else if e = 'f' then some '\x0c' else if e = 'n' then some '\n'
      else if e = 'r' then some '\x0d' else if e = 't' then some '\t'
      else none
    match c? with
    | some c =>
      match parseJStr rest with
      | some (s, r2) => some (c :: s, r2)
      | none => none
    | none => none
  | '\\' :: [] => none
  | c :: r =>
    if c.toNat < 32 then none
    else
      match parseJStr r with
      | some (s, r2) => some (c :: s, r2)
      | none => none

/-- A plain run of ASCII digits (no separators), for the JSON grammar. -/
def jDigRun (l : Str) : Str × Str := (l.takeWhile isDig, l.dropWhile isDig)

/-- JSON number grammar: `-?(0|[1-9]\d*)(\.\d+)?([eE][+-]?\d+)?`. -/
def parseJNum (l : Str) : Option (ℚ × Str) :=
  let sgn : ℤ × Str :=
    match l with
    | '-' :: r => (-1, r)
    | r => (1, r)
  let ipr := jDigRun sgn.2
  let ip := ipr.1
  if ip = [] then none
  else if ip.headD '0' = '0' ∧ ip.length > 1 then none
  else
    let fp : Str × Str :=
      match ipr.2 with
      | '.' :: r =>
        let d := jDigRun r
        if d.1 = [] then ([], '.' :: r) else d
      | r => ([], r)
    let mn : ℤ := sgn.1 * ((digitsToNat ip * 10 ^ fp.1.length + digitsToNat fp.1 : ℕ) : ℤ)
    let md : ℕ := 10 ^ fp.1.length
    match fp.2 with
    | 'e' :: r | 'E' :: r =>
      let esgn : Bool × Str :=
        match r with
        | '+' :: r2 => (true, r2)
        | '-' :: r2 => (false, r2)
        | r2 => (true, r2)
      let ep := jDigRun esgn.2
      if ep.1 = [] then none
      else some ((if esgn.1 then mkRat (mn * 10 ^ digitsToNat ep.1) md
                  else mkRat mn (md * 10 ^ digitsToNat ep.1)), ep.2)
    | r => some (mkRat mn md, r)

/-!  The JSON value parser is fuel-indexed: every recursive call burns one
unit of fuel (`loads` supplies more fuel than any parse can consume), and
the value/array-items/object-members states are fused into one function so
that the recursion is structural on the fuel and kernel-reducible. -/

/-- Parser state: at a value, inside an array (with the reversed items so
far), or inside an object (with the reversed members so far). -/
inductive PMode where
  | val
  | arrItems (acc : List Json)
  | objItems (acc : List (Str × Json))

/-- Parse one JSON value (`PMode.val`; the input starts at the value, no
leading whitespace), or continue an array/object entered just past `[`/`{`
or past a separating comma, whitespace already skipped. -/
def parseJ : Nat → PMode → Str → Option (Json × Str)
  | 0, _, _ => none
  | f + 1, .val, l =>
    if hasPfx (ofS "true") l then some (.jbool true, l.drop 4)
    else if hasPfx (ofS "false") l then some (.jbool false, l.drop 5)
    else if hasPfx (ofS "null") l then some (.null, l.drop 4)
    else if hasPfx (ofS "NaN") l then some (.special (ofS "NaN"), l.drop 3)
    else if hasPfx (ofS "Infinity") l then some (.special (ofS "Infinity"), l.drop 8)
    else if hasPfx (ofS "-Infinity") l then some (.special (ofS "-Infinity"), l.drop 9)
    else
      match l with
      | '"' :: r =>
        match parseJStr r with
        | some (s, r2) => some (.str s, r2)
        | none => none
      | '[' :: r => parseJ f (.arrItems []) (skipWS r)
      | '{' :: r => parseJ f (.objItems []) (skipWS r)
      | _ => parseJNum l |>.map (fun p => (.num p.1, p.2))
  | f + 1, .arrItems acc, l =>
    match l, acc with
    | ']' :: r, [] => some (.arr [], r)
    | l2, _ =>
      match parseJ f .val l2 with
      | some (v, r2) =>
        match skipWS r2 with
        | ',' :: r3 => parseJ f (.arrItems (v :: acc)) (skipWS r3)
        | ']' :: r3 => some (.arr (v :: acc).reverse, r3)
        | _ => none
      | none => none
  | f + 1, .objItems acc, l =>
    match l, acc with
    | '}' :: r, [] => some (.obj [], r)
    | '"' :: r, _ =>
      match parseJStr r with
      | some (k, r2) =>
        match skipWS r2 with
        | ':' :: r3 =>
          match parseJ f .val (skipWS r3) with
          | some (v, r4) =>
            match skipWS r4 with
            | ',' :: r5 => parseJ f (.objItems ((k, v) :: acc)) (skipWS r5)
            | '}' :: r5 => some (.obj ((k, v) :: acc).reverse, r5)
            | _ => none
          | none => none
        | _ => none
      | none => none
    | _, _ => none

/-- `json.loads`: skip surrounding whitespace, parse exactly one value,
reject trailing data (`none` models a raised `JSONDecodeError`). -/
def loads (s : Str) : Option Json :=
  let t := skipWS s
  match parseJ (2 * t.length + 4) .val t with
  | some (j, r) => if skipWS r = [] then some j else none
  | none => none

/-- `parse_json` (`merge.py` 113-119): non-strings and blank strings give
`[]`; parse failures are caught and give `[]`; otherwise the decoded JSON
value is returned unchecked (it need not be a list!). -/
def parse_json (v : Option Str) : Json :=
  match v with
  | none => .arr []
  | some s =>
    if pyStrip s = [] then .arr []
    else
      match loads s with
      | some j => j
      | none => .arr []

/-- Python iteration (`for item in x`): lists yield their items, strings
their characters, dicts their keys; other values raise `TypeError`. -/
def pyIterate : Json → Except Str (List Json)
  | .arr xs => .ok xs
  | .str s => .ok (s.map (fun c => .str [c]))
  | .obj fs => .ok (fs.map (fun kv => Json.str kv.1))
  | _ => .error (ofS "TypeError: object is not iterable")

/-- `item.get(key)`: `dict.get` (last binding wins, matching dict
construction from duplicate keys); any non-dict raises `AttributeError`. -/
def jsonGet (j : Json) (k : Str) : Except Str (Option Json) :=
  match j with
  | .obj fs => .ok ((fs.reverse.find? (fun kv => kv.1 = k)).map (·.2))
  | _ => .error (ofS "AttributeError: object has no attribute get")

/-- The nested-listing expansion loop (`merge.py` 383-400 and 234-251):
`for item in parse_json(cell)` followed by `item.get(...)` accesses.
Returns the field lists of the expanded items; a non-list JSON value or a
non-dict item makes the loop raise. -/
def expandListing (v : Option Str) : Except Str (List (List (Str × Json))) := do
  let items ← pyIterate (parse_json v)
  items.mapM (fun j =>
    match j with
    | .obj fs => .ok fs
    | _ => .error (ofS "AttributeError: object has no attribute get"))

/-- `pd.to_datetime(d)` with pandas' flexible parser, modelled exactly on
strict ISO `YYYY-MM-DD` input: such a string parses iff it is a real
Gregorian calendar date inside the pandas `Timestamp` range (for a
date-only string: 1677-09-22 through 2262-04-11; outside it pandas raises
`OutOfBoundsDatetime`).  Other pandas-parseable spellings (`"6/15/2020"`,
`"20230115"`, ISO with a time part, ...) go through `dateutil` in the
program and are NOT modelled; the C9 statement therefore carries an
explicit hypothesis confining every date field to the ISO shape
(`isIsoDateShape`), on which this model agrees with pandas. -/
def pdToDatetimeIso (s : Str) : Option Nat :=
  match s with
  | [y1, y2, y3, y4, '-', m1, m2, '-', d1, d2] =>
    if [y1, y2, y3, y4, m1, m2, d1, d2].all isDig then
      let y := digitsToNat [y1, y2, y3, y4]
      let m := digitsToNat [m1, m2]
      let d := digitsToNat [d1, d2]
      if 1 ≤ m ∧ m ≤ 12 ∧ 1 ≤ d ∧ d ≤ daysInMonth y m then
        if 16770922 ≤ y * 10000 + m * 100 + d ∧ y * 10000 + m * 100 + d ≤ 22620411 then
          some (y * 10000 + m * 100 + d)
        else none
      else none
    else none
  | _ => none

/-- The strict ISO `YYYY-MM-DD` shape: the domain on which
`pdToDatetimeIso` models `pd.to_datetime` exactly. -/
def isIsoDateShape (s : Str) : Bool :=
  match s with
  | [y1, y2, y3, y4, '-', m1, m2, '-', d1, d2] =>
    [y1, y2, y3, y4, m1, m2, d1, d2].all isDig
  | _ => false

/-- `extract_release_date` (`merge.py` 122-131): collect, in order, the
parseable dates of the string-valued `"date"` fields of the items of the
versions JSON; return the ISO form of their minimum, or `None` when there
are none.  Iterating a non-list value or `get` on a non-dict item raises.
This is the per-item step: `d = item.get("date")`, then
`if isinstance(d, str): try: dates.append(pd.to_datetime(d)) except: pass`. -/
def relDateStep (acc : List Nat) (item : Json) : Except Str (List Nat) := do
  let d ← jsonGet item (ofS "date")
  match d with
  | some (.str s) =>
    match pdToDatetimeIso s with
    | some n => pure (acc ++ [n])
    | none => pure acc
  | _ => pure acc

/-- `extract_release_date` (`merge.py` 122-131), continued: fold the step
over the items, then return the ISO form of the minimum collected date, or
`None` when none were collected. -/
def extract_release_date (versions_json : Option Str) : Except Str (Option Str) := do
  let items ← pyIterate (parse_json versions_json)
  let dates ← items.foldlM relDateStep []
  match dates with
  | [] => pure none
  | d :: ds => pure (some (isoOfDate (ds.foldl Nat.min d)))

/-! ### Row builder (`merge.py` 138-171) -/

/-- One output panel record (`FINAL_COLUMNS`).  `tool_id` is a string by
construction — `build_row` refuses to build a record without one. -/
structure Record where
  tool_id : Str
  tool_name : Option Str
  snapshot_day : Option Str
  date : Option Str
  release_date : Option Str
  internal_link : Option Str
  external_link : Option Str
  pricing_text : Option Str
  views : Option ℤ
  saves : Option ℤ
  comments_count : Option ℤ
  rating : Option ℚ
  source : Str
deriving Repr, DecidableEq

/-- `build_row` (`merge.py` 138-171): compute the tool id; a falsy id
(`None` or `""`) yields no record; otherwise assemble the record, coercing
each field exactly as the source does.  (`pricing_text` arrives as
`Option Str`, so `x if isinstance(x, str) else None` is the identity on the
model.)  Raises propagate from `extract_release_date` and the URL
canonicalizations, in source order. -/
def build_row (tool_name internal_link external_link pricing_text : Option Str)
    (views saves comments_count rating : PyVal) (versions : Option Str)
    (snapshot_day date : Option Str) (source : Str) :
    Except Str (Option Record) := do
  let tid ← compute_tool_id internal_link external_link
  match tid with
  | none => pure none
  | some t =>
    if t = [] then pure none
    else do
      let rel ← extract_release_date versions
      let il ← normalize_url internal_link
      let el ← normalize_url external_link
      pure (some
        { tool_id := t
          tool_name := tool_name
          snapshot_day := snapshot_day
          date := date
          release_date := rel
          internal_link := il
          external_link := el
          pricing_text := pricing_text
          views := safe_int views
          saves := safe_int saves
          comments_count := safe_int comments_count
          rating := safe_float rating
          source := source })

/-! ### Panel merge (`merge.py` 340-344, 417-424)

`pd.concat([panel, batch])` followed by
`sort_values(by=["views","saves","rating"], ascending=False,
na_position="last")` and `drop_duplicates(subset=["tool_id","snapshot_day"],
keep="first")`.  A multi-column `sort_values` is a stable lexicographic
sort (pandas ignores `kind` and uses `lexsort_indexer` for column lists),
so it is modelled as a stable insertion sort under the ranking preorder;
`drop_duplicates(keep="first")` keeps the first row of each key in that
order (pandas treats the `NaN` `snapshot_day`s of two rows as equal keys,
as does `Option.some`-free equality here). -/

/-- A possibly missing value, with missing ranked below present
(`na_position="last"` under a descending sort). -/
def obV {α : Type} (o : Option α) : WithBot α :=
  match o with
  | none => ⊥
  | some x => (x : WithBot α)

/-- The ranking key: views, then saves, then rating, compared
lexicographically with missing values at the bottom. -/
def rankKey (r : Record) : Lex (WithBot ℤ × Lex (WithBot ℤ × WithBot ℚ)) :=
  toLex (obV r.views, toLex (obV r.saves, obV r.rating))

/-- `a` may precede `b` in the ranked order (descending key). -/
def RankLe (a b : Record) : Prop := rankKey b ≤ rankKey a

instance : DecidableRel RankLe := fun a b =>
  inferInstanceAs (Decidable (rankKey b ≤ rankKey a))

instance : IsTotal Record RankLe :=
  ⟨fun a b => (le_total (rankKey a) (rankKey b)).symm⟩

instance : IsTrans Record RankLe :=
  ⟨fun _ _ _ h1 h2 => le_trans h2 h1⟩

instance : IsRefl Record RankLe := ⟨fun a => le_refl (rankKey a)⟩

/-- The stable descending sort of
`sort_values(by=["views","saves","rating"], ascending=False,
na_position="last")`. -/
def sortRows (l : List Record) : List Record := List.insertionSort RankLe l

/-- The deduplication key `(tool_id, snapshot_day)`. -/
def keyOf (r : Record) : Str × Option Str := (r.tool_id, r.snapshot_day)

/-- `drop_duplicates(subset=["tool_id","snapshot_day"], keep="first")`,
with the keys already kept accumulating in `seen`. -/
def dedupeAux (seen : List (Str × Option Str)) : List Record → List Record
  | [] => []
  | r :: rs =>
    if keyOf r ∈ seen then dedupeAux seen rs
    else r :: dedupeAux (keyOf r :: seen) rs

/-- `drop_duplicates(subset=["tool_id","snapshot_day"], keep="first")`:
keep the first row of each key. -/
def dedupeByKey (l : List Record) : List Record := dedupeAux [] l

/-- One merge step of `append_2023_to_panel` / `build_panel`: concatenate
the existing panel with the new batch, sort by the ranking, and keep the
first record per key. -/
def mergePanel (panel batch : List Record) : List Record :=
  dedupeByKey (sortRows (panel ++ batch))

/-- Whether a decoded JSON value is an object (a Python dict). -/
def isObjJ : Json → Bool
  | .obj _ => true
  | _ => false

/-- The date `extract_release_date` collects from one version item: the
parse of its string-valued `"date"` field, when there is one. -/
def dateOfItem (j : Json) : Option Nat :=
  match j with
  | .obj fs =>
    match (fs.reverse.find? (fun kv => kv.1 = ofS "date")).map (fun kv => kv.2) with
    | some (Json.str s) => pdToDatetimeIso s
    | _ => none
  | _ => none

/-- The raw string of an item's `"date"` field, before date parsing: the
value `d = item.get("date")` when the item is an object and
`isinstance(d, str)` holds. -/
def dateStrOfItem (j : Json) : Option Str :=
  match j with
  | .obj fs =>
    match (fs.reverse.find? (fun kv => kv.1 = ofS "date")).map (fun kv => kv.2) with
    | some (Json.str s) => some s
    | _ => none
  | _ => none

/-- All dates collected from a list of version items, in order. -/
def datesOfItems (items : List Json) : List Nat := items.filterMap dateOfItem

/-- The Boolean key test used with `find?`. -/
def keyP (k : Str × Option Str) (r : Record) : Bool := decide (keyOf r = k)

/-- The record `drop_duplicates` would keep for key `k` among `l`: the
first element of the key class that no other member of the class strictly
out-ranks (ties keep the earlier record). -/
def pickBest (k : Str × Option Str) : List Record → Option Record
  | [] => none
  | x :: xs =>
    if keyOf x = k then
      some (match pickBest k xs with
        | none => x
        | some y => if RankLe y x ∧ ¬ RankLe x y then y else x)
    else pickBest k xs

/-- A concrete record with `views = 50` (and `saves = 9`, to show that the
views comparison dominates the saves one). -/
def rec50 : Record :=
  { tool_id := ofS "https://t.example/a", tool_name := some (ofS "T older"),
    snapshot_day := some (ofS "20230101"), date := some (ofS "2023-01-01"),
    release_date := none, internal_link := some (ofS "https://t.example/a"),
    external_link := none, pricing_text := none, views := some 50, saves := some 9,
    comments_count := none, rating := none, source := ofS "2023" }

/-- The same key as `rec50` but with `views = 100` and no saves. -/
def rec100 : Record :=
  { rec50 with
    views := some 100
    saves := none
    tool_name := some (ofS "T newer")
    source := ofS "2024" }

/-! ## Claims -/

/-- Truncation toward zero is the floor on nonnegative rationals. -/
lemma ratTruncToZero_floor (q : ℚ) (h : 0 ≤ q) : ratTruncToZero q = ⌊q⌋ := by
  have hn : 0 ≤ q.num := Rat.num_nonneg.mpr h
  rw [ratTruncToZero, Int.tdiv_eq_ediv hn (by positivity), Rat.floor_def]

/-- Truncation toward zero is the ceiling on nonpositive rationals. -/
lemma ratTruncToZero_ceil (q : ℚ) (h : q ≤ 0) : ratTruncToZero q = ⌈q⌉ := by
  have h1 : ratTruncToZero q = -ratTruncToZero (-q) := by
    rw [ratTruncToZero, ratTruncToZero]
    rw [show (-q).num = -q.num from by simp, show (-q).den = q.den from by simp]
    rw [Int.neg_tdiv]
    ring
  rw [h1, ratTruncToZero_floor (-q) (by linarith)]
  rw [show ⌈q⌉ = -⌊-q⌋ from by rw [Int.floor_neg]; ring]

/-- Claim C10: for every numeric string that parses as a float but not as
an int, `safe_int` returns the float truncated toward zero — the floor for
nonnegative values and the ceiling for nonpositive ones (so neither rounded
nor null). -/
theorem C10_safe_int_truncates (s : Str) (q : ℚ)
    (hi : pyParseInt s = none) (hf : pyParseFloat s = some q) :
    safe_int (.vStr s) = some (ratTruncToZero q) ∧
    (0 ≤ q → ratTruncToZero q = ⌊q⌋) ∧ (q ≤ 0 → ratTruncToZero q = ⌈q⌉) := by
  refine ⟨?_, fun h => ratTruncToZero_floor q h, fun h => ratTruncToZero_ceil q h⟩
  simp [safe_int, pdIsna, pyIntOfVal, pyFloatOfVal, hi, hf]

/-- Claim C10, witness: `"12.9"` coerces to `12` and `"-12.9"` to `-12`. -/
theorem C10_safe_int_truncates_witness :
    safe_int (.vStr (ofS "12.9")) = some 12 ∧ safe_int (.vStr (ofS "-12.9")) = some (-12) := by
  have h1 := C10_safe_int_truncates (ofS "12.9") (mkRat 129 10) (by decide) (by decide)
  have h2 := C10_safe_int_truncates (ofS "-12.9") (mkRat (-129) 10) (by decide) (by decide)
  exact ⟨by rw [h1.1]; decide, by rw [h2.1]; decide⟩

/-- Claim C5, counterexample: `safe_int("1,200")` is `None`, not `1200` —
CPython `int()`/`float()` reject thousands separators, and `safe_int` has
no comma handling. -/
theorem C5_counterexample :
    safe_int (.vStr (ofS "1,200")) = none ∧ (none : Option ℤ) ≠ some 1200 := by
  exact ⟨by decide, by decide⟩

/-- Claim C5, amended: `safe_int` accepts plain integer strings and
floating forms such as `"12.0"` (giving `12`), and returns null on
missing/NaN input and on any string that parses neither as an int nor as a
float — but a numeric string with thousands separators is such a string:
`safe_int("1,200")` is null, not `1200`.  (Totality of the model is the
never-raises part.) -/
theorem C5_amended :
    safe_int (.vStr (ofS "1,200")) = none ∧
    safe_int (.vStr (ofS "1200")) = some 1200 ∧
    safe_int (.vStr (ofS "12.0")) = some 12 ∧
    safe_int .vNone = none ∧ safe_int .vNaN = none ∧
    (∀ s : Str, pyParseInt s = none → pyParseFloat s = none → safe_int (.vStr s) = none) := by
  refine ⟨by decide, by decide, by decide, by decide, by decide, fun s hi hf => ?_⟩
  simp [safe_int, pdIsna, pyIntOfVal, pyFloatOfVal, hi, hf]

/-- Claim C5, witness: the catch-all null branch at `"N/A"`. -/
theorem C5_amended_witness : safe_int (.vStr (ofS "N/A")) = none :=
  C5_amended.2.2.2.2.2 (ofS "N/A") (by decide) (by decide)

/-- Claim C4: the code RAISES on a matched `/web/` timestamp whose digits
are not a valid date (month 13 here) — `pd.to_datetime(..., "%Y%m%d")` is
called with `errors="raise"` semantics and no surrounding `try/except` —
and in particular it does not continue to a later candidate that carries a
valid timestamp. -/
theorem C4_code_raises :
    extract_snapshot_from_url
        [some (ofS "https://web.archive.org/web/20231301000000/https://t.co/x")]
      = .error (ofS "ValueError: time data does not match format %Y%m%d") ∧
    extract_snapshot_from_url
        [some (ofS "https://web.archive.org/web/20231301000000/https://t.co/x"),
         some (ofS "https://web.archive.org/web/20230615000000/https://t.co/x")]
      = .error (ofS "ValueError: time data does not match format %Y%m%d") := by
  exact ⟨by rfl, by rfl⟩

/-- Claim C6, counterexample: `"[1, 2]"` decodes to a JSON array whose
items are not objects; the expansion loop then raises `AttributeError`
on `item.get(...)` instead of yielding an empty sequence. -/
theorem C6_counterexample :
    expandListing (some (ofS "[1, 2]"))
      = .error (ofS "AttributeError: object has no attribute get") ∧
    expandListing (some (ofS "[1, 2]")) ≠ .ok [] := by
  refine ⟨rfl, fun h => ?_⟩
  rw [show expandListing (some (ofS "[1, 2]"))
      = Except.error (ofS "AttributeError: object has no attribute get") from rfl] at h
  exact Except.noConfusion h

/-- Claim C6, amended: for a non-string cell, a blank string, or a string
that fails to decode as JSON, the expander yields the empty sequence and
does not raise; but a cell whose content decodes to JSON that is not an
array of objects is passed through unguarded, and the expansion loop can
raise on it. -/
theorem C6_amended :
    (expandListing none = .ok []) ∧
    (∀ s : Str, pyStrip s = [] → expandListing (some s) = .ok []) ∧
    (∀ s : Str, pyStrip s ≠ [] → loads s = none → expandListing (some s) = .ok []) := by
  refine ⟨by rfl, fun s h => ?_, fun s h1 h2 => ?_⟩
  · have hp : parse_json (some s) = .arr [] := by
      show (if pyStrip s = [] then Json.arr [] else _) = Json.arr []
      rw [if_pos h]
    unfold expandListing
    rw [hp]
    rfl
  · have hp : parse_json (some s) = .arr [] := by
      show (if pyStrip s = [] then Json.arr []
            else match loads s with | some j => j | none => Json.arr []) = Json.arr []
      rw [if_neg h1, h2]
    unfold expandListing
    rw [hp]
    rfl

/-- Claim C6, witness: a malformed-JSON cell expands to the empty
sequence. -/
theorem C6_amended_witness : expandListing (some (ofS "not json")) = .ok [] :=
  C6_amended.2.2 (ofS "not json") (by decide) (by rfl)

lemma ok_bind {α β : Type} (a : α) (f : α → Except Str β) : (Except.ok a >>= f) = f a := rfl

lemma pure_eq_ok {α : Type} (a : α) : (pure a : Except Str α) = Except.ok a := rfl

lemma relDateStep_obj (acc : List Nat) (fs : List (Str × Json)) :
    relDateStep acc (.obj fs) = .ok (acc ++ (dateOfItem (.obj fs)).toList) := by
  show ((jsonGet (.obj fs) (ofS "date")) >>= _) = _
  rw [jsonGet, ok_bind, dateOfItem]
  cases hfind : (fs.reverse.find? (fun kv => kv.1 = ofS "date")).map (fun kv => kv.2) with
  | none => simp [pure_eq_ok]
  | some d =>
    cases d with
    | str s =>
      cases hp : pdToDatetimeIso s with
      | none => simp [hp, pure_eq_ok]
      | some n => simp [hp, pure_eq_ok]
    | null => simp [pure_eq_ok]
    | jbool b => simp [pure_eq_ok]
    | num q => simp [pure_eq_ok]
    | special t => simp [pure_eq_ok]
    | arr xs => simp [pure_eq_ok]
    | obj gs => simp [pure_eq_ok]

lemma relDateFold (items : List Json) (acc : List Nat)
    (hobj : ∀ j ∈ items, isObjJ j = true) :
    items.foldlM relDateStep acc = Except.ok (acc ++ datesOfItems items) := by
  induction items generalizing acc with
  | nil => simp [datesOfItems, pure_eq_ok]
  | cons j rest ih =>
    have hj := hobj j (List.mem_cons_self _ _)
    have hrest : ∀ x ∈ rest, isObjJ x = true := fun x hx => hobj x (List.mem_cons_of_mem _ hx)
    cases j with
    | obj fs =>
      rw [List.foldlM, relDateStep_obj, ok_bind, ih _ hrest]
      cases hd : dateOfItem (.obj fs) with
      | none => simp [datesOfItems, List.filterMap_cons, hd]
      | some n => simp [datesOfItems, List.filterMap_cons, hd]
    | null => exact absurd hj (by simp [isObjJ])
    | jbool b => exact absurd hj (by simp [isObjJ])
    | num q => exact absurd hj (by simp [isObjJ])
    | special s => exact absurd hj (by simp [isObjJ])
    | str s => exact absurd hj (by simp [isObjJ])
    | arr xs => exact absurd hj (by simp [isObjJ])

lemma foldlMin_mem (d : Nat) (ds : List Nat) : ds.foldl Nat.min d ∈ d :: ds := by
  induction ds generalizing d with
  | nil => simp
  | cons e es ih =>
    rw [List.foldl_cons]
    rcases List.mem_cons.mp (ih (Nat.min d e)) with h | h
    · rw [h]
      rcases Nat.le_total d e with hle | hle
      · simp [Nat.min_eq_left hle]
      · simp [Nat.min_eq_right hle]
    · simp [h]

lemma foldlMin_le (d : Nat) (ds : List Nat) : ∀ e ∈ d :: ds, ds.foldl Nat.min d ≤ e := by
  induction ds generalizing d with
  | nil => intro e he; simp at he; simp [he]
  | cons x xs ih =>
    intro e he
    have hmin : Nat.min d x ≤ d ∧ Nat.min d x ≤ x := ⟨Nat.min_le_left _ _, Nat.min_le_right _ _⟩
    rw [List.foldl_cons]
    rcases List.mem_cons.mp he with he1 | he2
    · exact le_trans (ih (Nat.min d x) _ (List.mem_cons_self _ _)) (he1 ▸ hmin.1)
    · rcases List.mem_cons.mp he2 with he3 | he4
      · exact le_trans (ih (Nat.min d x) _ (List.mem_cons_self _ _)) (he3 ▸ hmin.2)
      · exact ih (Nat.min d x) e (List.mem_cons_of_mem _ he4)

lemma err_bind {α β : Type} (e : Str) (f : α → Except Str β) :
    (Except.error e >>= f) = Except.error e := rfl

lemma dateOfItem_eq_parse (j : Json) :
    dateOfItem j = (dateStrOfItem j).bind pdToDatetimeIso := by
  cases j with
  | null => rfl
  | jbool b => rfl
  | num q => rfl
  | special s => rfl
  | str s => rfl
  | arr xs => rfl
  | obj fs =>
    show (match (fs.reverse.find? (fun kv => kv.1 = ofS "date")).map (fun kv => kv.2) with
        | some (Json.str s) => pdToDatetimeIso s
        | _ => none)
      = Option.bind (match (fs.reverse.find? (fun kv => kv.1 = ofS "date")).map (fun kv => kv.2) with
        | some (Json.str s) => some s
        | _ => none) pdToDatetimeIso
    cases (fs.reverse.find? (fun kv => kv.1 = ofS "date")).map (fun kv => kv.2) with
    | none => rfl
    | some jv => cases jv <;> rfl

/-- Claim C9, amended: for a version history whose items are objects and
whose `"date"` fields are strict ISO `YYYY-MM-DD` strings (the domain on
which the `pd.to_datetime` model is exact — see `pdToDatetimeIso`),
`build_row`'s `release_date` is exactly `extract_release_date`'s result;
that result is the ISO form of the temporal minimum of the valid dates
found in the items' `"date"` fields; and when no valid date exists it is
null — there is no fallback to a raw text hint (no hint is ever passed). -/
theorem C9_amended (v : Option Str) (items : List Json)
    (hit : pyIterate (parse_json v) = .ok items)
    (hobj : ∀ j ∈ items, isObjJ j = true)
    (hiso : items.all (fun j => (dateStrOfItem j).elim true isIsoDateShape) = true) :
    (∀ tn il el pt vw sv cc rt sd dt src rec,
        build_row tn il el pt vw sv cc rt v sd dt src = .ok (some rec) →
        extract_release_date v = .ok rec.release_date) ∧
    (datesOfItems items = [] → extract_release_date v = .ok none) ∧
    (datesOfItems items ≠ [] →
      ∃ m, extract_release_date v = .ok (some (isoOfDate m)) ∧
        m ∈ datesOfItems items ∧ ∀ e ∈ datesOfItems items, m ≤ e) := by
  have hrel : extract_release_date v = (match datesOfItems items with
      | [] => Except.ok none
      | d :: ds => Except.ok (some (isoOfDate (ds.foldl Nat.min d)))) := by
    unfold extract_release_date
    rw [hit, ok_bind, relDateFold items [] hobj, List.nil_append, ok_bind]
    cases datesOfItems items with
    | nil => rfl
    | cons d ds => rfl
  refine ⟨?_, ?_, ?_⟩
  · intro tn il el pt vw sv cc rt sd dt src rec hbr
    unfold build_row at hbr
    cases hcid : compute_tool_id il el with
    | error e => rw [hcid, err_bind] at hbr; exact Except.noConfusion hbr
    | ok tid =>
      rw [hcid, ok_bind] at hbr
      cases tid with
      | none =>
        have h2 : (Except.ok (none : Option Record) : Except Str (Option Record))
            = .ok (some rec) := hbr
        exact Option.noConfusion (Except.ok.inj h2)
      | some t =>
        have hbr2 : (if t = [] then (pure none : Except Str (Option Record))
            else do
              let rel ← extract_release_date v
              let il2 ← normalize_url il
              let el2 ← normalize_url el
              pure (some
                { tool_id := t, tool_name := tn, snapshot_day := sd, date := dt,
                  release_date := rel, internal_link := il2, external_link := el2,
                  pricing_text := pt, views := safe_int vw, saves := safe_int sv,
                  comments_count := safe_int cc, rating := safe_float rt,
                  source := src : Record })) = .ok (some rec) := hbr
        clear hbr
        rename' hbr2 => hbr
        by_cases ht : t = []
        · rw [if_pos ht] at hbr
          have h2 : (Except.ok (none : Option Record) : Except Str (Option Record))
              = .ok (some rec) := hbr
          exact Option.noConfusion (Except.ok.inj h2)
        · rw [if_neg ht] at hbr
          cases hrd : extract_release_date v with
          | error e => rw [hrd, err_bind] at hbr; exact Except.noConfusion hbr
          | ok rel =>
            rw [hrd, ok_bind] at hbr
            cases hil : normalize_url il with
            | error e => rw [hil, err_bind] at hbr; exact Except.noConfusion hbr
            | ok il2 =>
              rw [hil, ok_bind] at hbr
              cases hel : normalize_url el with
              | error e => rw [hel, err_bind] at hbr; exact Except.noConfusion hbr
              | ok el2 =>
                rw [hel, ok_bind] at hbr
                have h2 : Except.ok (some
                    { tool_id := t, tool_name := tn, snapshot_day := sd, date := dt,
                      release_date := rel, internal_link := il2, external_link := el2,
                      pricing_text := pt, views := safe_int vw, saves := safe_int sv,
                      comments_count := safe_int cc, rating := safe_float rt,
                      source := src : Record })
                    = Except.ok (some rec) := hbr
                have h3 := Option.some.inj (Except.ok.inj h2)
                rw [← h3]
  · intro h
    rw [hrel, h]
  · intro h
    rcases List.exists_cons_of_ne_nil h with ⟨d, ds, hds⟩
    refine ⟨ds.foldl Nat.min d, ?_, ?_, ?_⟩
    · rw [hrel, hds]
    · rw [hds]; exact foldlMin_mem d ds
    · rw [hds]; exact foldlMin_le d ds

/-- Claim C9, counterexample: a ToolMention with no version history
(`versions = None`) produces a record whose `release_date` is null — there
is no fallback to any raw text hint (`build_row` takes no hint input at
all). -/
theorem C9_counterexample :
    (build_row (some (ofS "A")) (some (ofS "http://a.com/x")) none none .vNone .vNone .vNone
        .vNone none none none (ofS "2023")).map (Option.map Record.release_date)
      = .ok (some none) := by rfl

/-- Claim C9, witness: a two-item ISO version history; the temporal
minimum 2021-01-02 of the two parsed dates is returned as
`release_date`. -/
theorem C9_amended_witness :
    extract_release_date (some (ofS
        "[\x7b\"date\": \"2023-05-04\"\x7d, \x7b\"date\": \"2021-01-02\"\x7d]"))
      = .ok (some (ofS "2021-01-02")) := by
  have h := (C9_amended (some (ofS
        "[\x7b\"date\": \"2023-05-04\"\x7d, \x7b\"date\": \"2021-01-02\"\x7d]"))
    [Json.obj [(ofS "date", Json.str (ofS "2023-05-04"))],
     Json.obj [(ofS "date", Json.str (ofS "2021-01-02"))]]
    rfl (by decide) (by decide)).2.2 (by decide)
  obtain ⟨m, h1, h2, h3⟩ := h
  have h5 : datesOfItems
      [Json.obj [(ofS "date", Json.str (ofS "2023-05-04"))],
       Json.obj [(ofS "date", Json.str (ofS "2021-01-02"))]] = [20230504, 20210102] := rfl
  have h4 := h3 20210102 (by rw [h5]; decide)
  rw [h5] at h2
  have hm : m = 20210102 := by
    rcases List.mem_cons.mp h2 with h6 | h6
    · subst h6
      exact absurd h4 (by decide)
    · rcases List.mem_cons.mp h6 with h7 | h7
      · exact h7
      · exact absurd h7 (List.not_mem_nil m)
  have h8 : isoOfDate 20210102 = ofS "2021-01-02" := by decide
  rw [hm, h8] at h1
  exact h1

/-- Claim C1: `build_row` emits a record only when the tool identity is
resolvable.  When both links canonicalize to null the result is no record
(`None`); and an emitted record never has an empty `tool_id` (by
construction it also cannot be null — the field is a string). -/
theorem C1_identity_required
    (tn il el pt : Option Str) (vw sv cc rt : PyVal) (vs : Option Str)
    (sd dt : Option Str) (src : Str) :
    (normalize_url il = .ok none → normalize_url el = .ok none →
      build_row tn il el pt vw sv cc rt vs sd dt src = .ok none) ∧
    (∀ rec, build_row tn il el pt vw sv cc rt vs sd dt src = .ok (some rec) →
      rec.tool_id ≠ []) := by
  constructor
  · intro h1 h2
    have hcid : compute_tool_id il el = .ok none := by
      unfold compute_tool_id
      rw [h1, ok_bind]
      exact h2
    unfold build_row
    rw [hcid, ok_bind]
    rfl
  · intro rec hbr
    unfold build_row at hbr
    cases hcid : compute_tool_id il el with
    | error e => rw [hcid, err_bind] at hbr; exact Except.noConfusion hbr
    | ok tid =>
      rw [hcid, ok_bind] at hbr
      cases tid with
      | none =>
        have h2 : (Except.ok (none : Option Record) : Except Str (Option Record))
            = .ok (some rec) := hbr
        exact Option.noConfusion (Except.ok.inj h2)
      | some t =>
        have hbr2 : (if t = [] then (pure none : Except Str (Option Record))
            else do
              let rel ← extract_release_date vs
              let il2 ← normalize_url il
              let el2 ← normalize_url el
              pure (some
                { tool_id := t, tool_name := tn, snapshot_day := sd, date := dt,
                  release_date := rel, internal_link := il2, external_link := el2,
                  pricing_text := pt, views := safe_int vw, saves := safe_int sv,
                  comments_count := safe_int cc, rating := safe_float rt,
                  source := src : Record })) = .ok (some rec) := hbr
        clear hbr
        by_cases ht : t = []
        · rw [if_pos ht] at hbr2
          have h2 : (Except.ok (none : Option Record) : Except Str (Option Record))
              = .ok (some rec) := hbr2
          exact Option.noConfusion (Except.ok.inj h2)
        · rw [if_neg ht] at hbr2
          cases hrd : extract_release_date vs with
          | error e => rw [hrd, err_bind] at hbr2; exact Except.noConfusion hbr2
          | ok rel =>
            rw [hrd, ok_bind] at hbr2
            cases hil : normalize_url il with
            | error e => rw [hil, err_bind] at hbr2; exact Except.noConfusion hbr2
            | ok il2 =>
              rw [hil, ok_bind] at hbr2
              cases hel : normalize_url el with
              | error e => rw [hel, err_bind] at hbr2; exact Except.noConfusion hbr2
              | ok el2 =>
                rw [hel, ok_bind] at hbr2
                have h2 : Except.ok (some
                    { tool_id := t, tool_name := tn, snapshot_day := sd, date := dt,
                      release_date := rel, internal_link := il2, external_link := el2,
                      pricing_text := pt, views := safe_int vw, saves := safe_int sv,
                      comments_count := safe_int cc, rating := safe_float rt,
                      source := src : Record })
                    = Except.ok (some rec) := hbr2
                have h3 := Option.some.inj (Except.ok.inj h2)
                rw [← h3]
                exact ht

/-- Claim C1, witness: with both links missing, no record is emitted. -/
theorem C1_identity_required_witness :
    build_row none none none none .vNone .vNone .vNone .vNone none none none (ofS "2024")
      = .ok none :=
  (C1_identity_required none none none none .vNone .vNone .vNone .vNone none none none
    (ofS "2024")).1 rfl rfl

lemma dedupeAux_find? (k : Str × Option Str) (l : List Record) (seen : List (Str × Option Str))
    (hk : k ∉ seen) :
    (dedupeAux seen l).find? (keyP k) = l.find? (keyP k) := by
  induction l generalizing seen with
  | nil => rfl
  | cons r rs ih =>
    rw [dedupeAux]
    by_cases hs : keyOf r ∈ seen
    · rw [if_pos hs]
      have hkr : keyP k r = false := by
        simp only [keyP, decide_eq_false_iff_not]
        intro h
        exact hk (h ▸ hs)
      rw [List.find?_cons_of_neg _ (by simp [hkr]), ih seen hk]
    · rw [if_neg hs]
      by_cases hkr : keyOf r = k
      · have : keyP k r = true := by simp [keyP, hkr]
        rw [List.find?_cons_of_pos _ this, List.find?_cons_of_pos _ this]
      · have hne : keyP k r = false := by simp [keyP, hkr]
        rw [List.find?_cons_of_neg _ (by simp [hne]), List.find?_cons_of_neg _ (by simp [hne])]
        exact ih (keyOf r :: seen) (by
          intro hmem
          rcases List.mem_cons.mp hmem with h | h
          · exact hkr h.symm
          · exact hk h)

lemma dedupeByKey_find? (k : Str × Option Str) (l : List Record) :
    (dedupeByKey l).find? (keyP k) = l.find? (keyP k) :=
  dedupeAux_find? k l [] (List.not_mem_nil k)

lemma dedupeAux_sublist (seen : List (Str × Option Str)) (l : List Record) :
    (dedupeAux seen l).Sublist l := by
  induction l generalizing seen with
  | nil => exact List.Sublist.refl []
  | cons r rs ih =>
    rw [dedupeAux]
    by_cases hs : keyOf r ∈ seen
    · rw [if_pos hs]
      exact (ih seen).cons r
    · rw [if_neg hs]
      exact (ih (keyOf r :: seen)).cons₂ r

lemma dedupeAux_not_seen (seen : List (Str × Option Str)) (l : List Record) :
    ∀ x ∈ dedupeAux seen l, keyOf x ∉ seen := by
  induction l generalizing seen with
  | nil => intro x hx; exact absurd hx (List.not_mem_nil x)
  | cons r rs ih =>
    intro x hx
    rw [dedupeAux] at hx
    by_cases hs : keyOf r ∈ seen
    · rw [if_pos hs] at hx
      exact ih seen x hx
    · rw [if_neg hs] at hx
      rcases List.mem_cons.mp hx with h | h
      · exact h ▸ hs
      · intro hmem
        exact ih (keyOf r :: seen) x h (List.mem_cons_of_mem _ hmem)

lemma dedupeAux_pairwise (seen : List (Str × Option Str)) (l : List Record) :
    (dedupeAux seen l).Pairwise (fun a b => keyOf a ≠ keyOf b) := by
  induction l generalizing seen with
  | nil => exact List.Pairwise.nil
  | cons r rs ih =>
    rw [dedupeAux]
    by_cases hs : keyOf r ∈ seen
    · rw [if_pos hs]; exact ih seen
    · rw [if_neg hs]
      refine List.pairwise_cons.mpr ⟨?_, ih (keyOf r :: seen)⟩
      intro b hb heq
      exact dedupeAux_not_seen _ _ b hb (heq ▸ List.mem_cons_self _ _)

lemma dedupeAux_covers (seen : List (Str × Option Str)) (l : List Record) :
    ∀ x ∈ l, keyOf x ∈ seen ∨ ∃ s ∈ dedupeAux seen l, keyOf s = keyOf x := by
  induction l generalizing seen with
  | nil => intro x hx; exact absurd hx (List.not_mem_nil x)
  | cons r rs ih =>
    intro x hx
    rw [dedupeAux]
    by_cases hs : keyOf r ∈ seen
    · rw [if_pos hs]
      rcases List.mem_cons.mp hx with h | h
      · exact Or.inl (h ▸ hs)
      · exact ih seen x h
    · rw [if_neg hs]
      rcases List.mem_cons.mp hx with h | h
      · exact Or.inr ⟨r, List.mem_cons_self _ _, by rw [h]⟩
      · rcases ih (keyOf r :: seen) x h with hin | ⟨s, hsmem, hskey⟩
        · rcases List.mem_cons.mp hin with h2 | h2
          · exact Or.inr ⟨r, List.mem_cons_self _ _, h2.symm⟩
          · exact Or.inl h2
        · exact Or.inr ⟨s, List.mem_cons_of_mem _ hsmem, hskey⟩

lemma find?_orderedInsert_of_neg (p : Record → Bool) (x : Record) (m : List Record)
    (hx : p x = false) :
    (m.orderedInsert RankLe x).find? p = m.find? p := by
  induction m with
  | nil => simp [List.orderedInsert, List.find?, hx]
  | cons b m' ih =>
    rw [List.orderedInsert]
    by_cases hr : RankLe x b
    · rw [if_pos hr]
      rw [List.find?_cons_of_neg _ (by simp [hx])]
    · rw [if_neg hr]
      by_cases hb : p b
      · rw [List.find?_cons_of_pos _ hb, List.find?_cons_of_pos _ hb]
      · rw [List.find?_cons_of_neg _ (by simp at hb; simp [hb]),
            List.find?_cons_of_neg _ (by simp at hb; simp [hb])]
        exact ih

lemma find?_orderedInsert_pos_none (p : Record → Bool) (x : Record) (m : List Record)
    (hs : m.Sorted RankLe) (hx : p x = true) (hf : m.find? p = none) :
    (m.orderedInsert RankLe x).find? p = some x := by
  induction m with
  | nil => simp [List.orderedInsert, List.find?, hx]
  | cons b m' ih =>
    have hb : p b = false := by
      by_contra hb2
      rw [List.find?_cons_of_pos _ (by simpa using hb2)] at hf
      exact Option.noConfusion hf
    rw [List.find?_cons_of_neg _ (by simp [hb])] at hf
    rw [List.orderedInsert]
    by_cases hr : RankLe x b
    · rw [if_pos hr, List.find?_cons_of_pos _ hx]
    · rw [if_neg hr, List.find?_cons_of_neg _ (by simp [hb])]
      exact ih (List.sorted_cons.mp hs).2 hf

lemma find?_orderedInsert_pos_some (p : Record → Bool) (x y : Record) (m : List Record)
    (hs : m.Sorted RankLe) (hx : p x = true) (hf : m.find? p = some y) :
    (m.orderedInsert RankLe x).find? p = (if RankLe x y then some x else some y) := by
  induction m with
  | nil => exact absurd hf (by simp [List.find?])
  | cons b m' ih =>
    rw [List.orderedInsert]
    by_cases hb : p b
    · have hyb : y = b := by
        rw [List.find?_cons_of_pos _ (by simpa using hb)] at hf
        exact (Option.some.inj hf).symm
      subst hyb
      by_cases hr : RankLe x y
      · rw [if_pos hr, if_pos hr, List.find?_cons_of_pos _ hx]
      · rw [if_neg hr, if_neg hr, List.find?_cons_of_pos _ (by simpa using hb)]
    · rw [List.find?_cons_of_neg _ (by simp at hb; simp [hb])] at hf
      by_cases hr : RankLe x b
      · have hy : y ∈ m' := List.mem_of_find?_eq_some hf
        have hby : RankLe b y := (List.sorted_cons.mp hs).1 y hy
        rw [if_pos hr, if_pos (Trans.trans hr hby), List.find?_cons_of_pos _ hx]
      · rw [if_neg hr, List.find?_cons_of_neg _ (by simp at hb; simp [hb])]
        exact ih (List.sorted_cons.mp hs).2 hf

lemma find?_sortRows_eq_pickBest (k : Str × Option Str) (l : List Record) :
    (sortRows l).find? (keyP k) = pickBest k l := by
  induction l with
  | nil => rfl
  | cons x xs ih =>
    rw [sortRows, List.insertionSort, pickBest]
    by_cases hk : keyOf x = k
    · have hx : keyP k x = true := by simp [keyP, hk]
      rw [if_pos hk]
      cases hpb : pickBest k xs with
      | none =>
        rw [find?_orderedInsert_pos_none (keyP k) x _
          (List.sorted_insertionSort RankLe xs) hx
          (by rw [show (List.insertionSort RankLe xs).find? (keyP k) = pickBest k xs from ih,
                  hpb])]
      | some y =>
        rw [find?_orderedInsert_pos_some (keyP k) x y _
          (List.sorted_insertionSort RankLe xs) hx
          (by rw [show (List.insertionSort RankLe xs).find? (keyP k) = pickBest k xs from ih,
                  hpb])]
        show _ = some (if RankLe y x ∧ ¬ RankLe x y then y else x)
        by_cases hxy : RankLe x y
        · rw [if_pos hxy]
          have h5 : ¬(RankLe y x ∧ ¬ RankLe x y) := fun h => h.2 hxy
          rw [if_neg h5]
        · rw [if_neg hxy]
          have h5 : RankLe y x ∧ ¬ RankLe x y :=
            ⟨(IsTotal.total (r := RankLe) x y).resolve_left hxy, hxy⟩
          rw [if_pos h5]
    · have hx : keyP k x = false := by simp [keyP, hk]
      rw [if_neg hk]
      rw [find?_orderedInsert_of_neg (keyP k) x _ hx]
      exact ih

lemma pickBest_eq_none (k : Str × Option Str) (l : List Record) :
    pickBest k l = none ↔ ∀ x ∈ l, keyOf x ≠ k := by
  induction l with
  | nil => simp [pickBest]
  | cons x xs ih =>
    rw [pickBest]
    by_cases hk : keyOf x = k
    · rw [if_pos hk]
      simp only [List.mem_cons]
      constructor
      · intro h; exact absurd h (by simp)
      · intro h; exact absurd hk (h x (Or.inl rfl))
    · rw [if_neg hk]
      rw [ih]
      constructor
      · intro h z hz
        rcases List.mem_cons.mp hz with h1 | h1
        · exact h1 ▸ hk
        · exact h z h1
      · intro h z hz; exact h z (List.mem_cons_of_mem _ hz)

lemma pickBest_spec (k : Str × Option Str) (l : List Record) :
    ∀ s, pickBest k l = some s →
      keyOf s = k ∧ s ∈ l ∧ ∀ x ∈ l, keyOf x = k → RankLe s x := by
  induction l with
  | nil => intro s h; exact absurd h (by simp [pickBest])
  | cons x xs ih =>
    intro s h
    rw [pickBest] at h
    by_cases hk : keyOf x = k
    · rw [if_pos hk] at h
      cases hpb : pickBest k xs with
      | none =>
        rw [hpb] at h
        have hs : s = x := (Option.some.inj h).symm
        subst hs
        refine ⟨hk, List.mem_cons_self _ _, ?_⟩
        intro z hz hzk
        rcases List.mem_cons.mp hz with h1 | h1
        · exact h1 ▸ IsRefl.refl (r := RankLe) s
        · exact absurd hzk ((pickBest_eq_none k xs).mp hpb z h1)
      | some y =>
        rw [hpb] at h
        obtain ⟨hyk, hymem, hybest⟩ := ih y hpb
        by_cases hyx : RankLe y x ∧ ¬ RankLe x y
        · rw [show (match some y with
              | none => x
              | some y => if RankLe y x ∧ ¬ RankLe x y then y else x) = y
              from by rw [show (match some y with
                | none => x
                | some y => if RankLe y x ∧ ¬ RankLe x y then y else x)
                = if RankLe y x ∧ ¬ RankLe x y then y else x from rfl, if_pos hyx]] at h
          have hs : s = y := (Option.some.inj h).symm
          subst hs
          refine ⟨hyk, List.mem_cons_of_mem _ hymem, ?_⟩
          intro z hz hzk
          rcases List.mem_cons.mp hz with h1 | h1
          · exact h1 ▸ hyx.1
          · exact hybest z h1 hzk
        · rw [show (match some y with
              | none => x
              | some y => if RankLe y x ∧ ¬ RankLe x y then y else x) = x
              from by rw [show (match some y with
                | none => x
                | some y => if RankLe y x ∧ ¬ RankLe x y then y else x)
                = if RankLe y x ∧ ¬ RankLe x y then y else x from rfl, if_neg hyx]] at h
          have hs : s = x := (Option.some.inj h).symm
          subst hs
          refine ⟨hk, List.mem_cons_self _ _, ?_⟩
          intro z hz hzk
          rcases List.mem_cons.mp hz with h1 | h1
          · exact h1 ▸ IsRefl.refl (r := RankLe) s
          · have hsy : RankLe s y := by
              by_cases hxy : RankLe s y
              · exact hxy
              · exact absurd ⟨(IsTotal.total (r := RankLe) s y).resolve_left hxy, hxy⟩ hyx
            exact Trans.trans hsy (hybest z h1 hzk)
    · rw [if_neg hk] at h
      obtain ⟨h1, h2, h3⟩ := ih s h
      refine ⟨h1, List.mem_cons_of_mem _ h2, ?_⟩
      intro z hz hzk
      rcases List.mem_cons.mp hz with hz1 | hz1
      · exact absurd (hz1 ▸ hzk) hk
      · exact h3 z hz1 hzk

lemma strict_best_assoc (x y z : Record) :
    (if RankLe (if RankLe z y ∧ ¬ RankLe y z then z else y) x
        ∧ ¬ RankLe x (if RankLe z y ∧ ¬ RankLe y z then z else y)
     then (if RankLe z y ∧ ¬ RankLe y z then z else y) else x)
    = (if RankLe z (if RankLe y x ∧ ¬ RankLe x y then y else x)
          ∧ ¬ RankLe (if RankLe y x ∧ ¬ RankLe x y then y else x) z
       then z else (if RankLe y x ∧ ¬ RankLe x y then y else x)) := by
  by_cases hzy : RankLe z y ∧ ¬ RankLe y z
  · rw [if_pos hzy]
    by_cases hyx : RankLe y x ∧ ¬ RankLe x y
    · rw [if_pos hyx]
      have hzx : RankLe z x ∧ ¬ RankLe x z := by
        refine ⟨Trans.trans hzy.1 hyx.1, fun hxz => ?_⟩
        exact hyx.2 (Trans.trans hxz hzy.1)
      rw [if_pos hzx, if_pos hzy]
    · rw [if_neg hyx]
  · rw [if_neg hzy]
    by_cases hyx : RankLe y x ∧ ¬ RankLe x y
    · rw [if_pos hyx, if_neg hzy]
    · rw [if_neg hyx]
      by_cases hzx : RankLe z x ∧ ¬ RankLe x z
      · exfalso
        have hyz : RankLe y z := by
          by_cases h2 : RankLe y z
          · exact h2
          · exact absurd ⟨(IsTotal.total (r := RankLe) y z).resolve_left h2, h2⟩ hzy
        have hxy : RankLe x y := by
          by_cases h2 : RankLe x y
          · exact h2
          · exact absurd ⟨(IsTotal.total (r := RankLe) x y).resolve_left h2, h2⟩ hyx
        exact hzx.2 (Trans.trans hxy hyz)
      · rw [if_neg hzx]

lemma pickBest_append (k : Str × Option Str) (l₁ l₂ : List Record) :
    pickBest k (l₁ ++ l₂)
      = (match pickBest k l₁, pickBest k l₂ with
         | none, o => o
         | some x, none => some x
         | some x, some y => some (if RankLe y x ∧ ¬ RankLe x y then y else x)) := by
  induction l₁ with
  | nil =>
    rw [List.nil_append]
    cases pickBest k l₂ <;> rfl
  | cons x xs ih =>
    rw [List.cons_append, pickBest, pickBest]
    by_cases hk : keyOf x = k
    · rw [if_pos hk, if_pos hk, ih]
      cases hxs : pickBest k xs with
      | none =>
        cases hl2 : pickBest k l₂ with
        | none => rfl
        | some z => rfl
      | some y =>
        cases hl2 : pickBest k l₂ with
        | none => rfl
        | some z =>
          show some (if RankLe (if RankLe z y ∧ ¬ RankLe y z then z else y) x
              ∧ ¬ RankLe x (if RankLe z y ∧ ¬ RankLe y z then z else y)
            then (if RankLe z y ∧ ¬ RankLe y z then z else y) else x)
            = some (if RankLe z (if RankLe y x ∧ ¬ RankLe x y then y else x)
                ∧ ¬ RankLe (if RankLe y x ∧ ¬ RankLe x y then y else x) z
              then z else (if RankLe y x ∧ ¬ RankLe x y then y else x))
          rw [strict_best_assoc]
    · rw [if_neg hk, if_neg hk]
      exact ih

lemma find?_eq_of_mem_pairwise (l : List Record) (s : Record)
    (hp : l.Pairwise (fun a b => keyOf a ≠ keyOf b)) (hs : s ∈ l) :
    l.find? (keyP (keyOf s)) = some s := by
  induction l with
  | nil => exact absurd hs (List.not_mem_nil s)
  | cons r rs ih =>
    rcases List.mem_cons.mp hs with h | h
    · subst h
      exact List.find?_cons_of_pos _ (by simp [keyP])
    · have hne : keyOf r ≠ keyOf s := (List.pairwise_cons.mp hp).1 s h
      rw [List.find?_cons_of_neg _ (by simp [keyP]; exact fun h2 => hne h2)]
      exact ih (List.pairwise_cons.mp hp).2 h

lemma sortRows_mem (l : List Record) (x : Record) : x ∈ sortRows l ↔ x ∈ l := by
  rw [sortRows]
  exact List.mem_insertionSort RankLe

lemma mergePanel_sorted (P B : List Record) : (mergePanel P B).Sorted RankLe :=
  List.Pairwise.sublist (dedupeAux_sublist [] _) (List.sorted_insertionSort RankLe (P ++ B))

lemma mergePanel_find? (P B : List Record) (k : Str × Option Str) :
    (mergePanel P B).find? (keyP k) = pickBest k (P ++ B) := by
  rw [show mergePanel P B = dedupeByKey (sortRows (P ++ B)) from rfl, dedupeByKey_find?]
  exact find?_sortRows_eq_pickBest k (P ++ B)

/-- Claim C2: one merge keeps at most one record per `(tool_id,
snapshot_day)` key (pairwise-distinct keys), every key present going in is
still present, each survivor is one of the input records, and the survivor
ranks at least as high as every input record sharing its key under the
descending views/saves/rating order with nulls last (`RankLe`). -/
theorem C2_merge_best_row_wins (P B : List Record) :
    ((mergePanel P B).Pairwise (fun a b => keyOf a ≠ keyOf b)) ∧
    (∀ s ∈ mergePanel P B, s ∈ P ++ B) ∧
    (∀ s ∈ mergePanel P B, ∀ x ∈ P ++ B, keyOf x = keyOf s → RankLe s x) ∧
    (∀ x ∈ P ++ B, ∃ s ∈ mergePanel P B, keyOf s = keyOf x) := by
  refine ⟨dedupeAux_pairwise [] _, ?_, ?_, ?_⟩
  · intro s hs
    exact (sortRows_mem (P ++ B) s).mp (List.Sublist.mem hs (dedupeAux_sublist [] _))
  · intro s hs x hx hkey
    have h1 : (mergePanel P B).find? (keyP (keyOf s)) = some s :=
      find?_eq_of_mem_pairwise _ s (dedupeAux_pairwise [] _) hs
    have h2 : pickBest (keyOf s) (P ++ B) = some s := by
      rw [← mergePanel_find? P B (keyOf s)]
      exact h1
    exact (pickBest_spec (keyOf s) (P ++ B) s h2).2.2 x hx hkey
  · intro x hx
    have hx2 : x ∈ sortRows (P ++ B) := (sortRows_mem (P ++ B) x).mpr hx
    rcases dedupeAux_covers [] (sortRows (P ++ B)) x hx2 with h | h
    · exact absurd h (List.not_mem_nil _)
    · exact h

/-- Claim C2, witness: between records sharing a key with `views = 100`
and `views = 50`, the merge keeps exactly the `views = 100` record. -/
theorem C2_merge_best_row_wins_witness :
    mergePanel [rec50] [rec100] = [rec100] ∧ keyOf rec50 = keyOf rec100 ∧
    RankLe rec100 rec50 := by
  refine ⟨by decide, by decide, ?_⟩
  exact (C2_merge_best_row_wins [rec50] [rec100]).2.2.1 rec100
    (by rw [show mergePanel [rec50] [rec100] = [rec100] from by decide]
        exact List.mem_singleton.mpr rfl)
    rec50 (by simp) (by decide)

/-- Claim C7: merging the same batch twice changes nothing — per
`(tool_id, snapshot_day)` key, the panel after `merge (merge P B) B` holds
exactly the record it held after `merge P B`; in a ranking tie the
already-present record is the one kept (the sort is stable and the panel
precedes the batch in the concatenation). -/
theorem C7_merge_idempotent (P B : List Record) (k : Str × Option Str) :
    (mergePanel (mergePanel P B) B).find? (keyP k) = (mergePanel P B).find? (keyP k) := by
  have hM : (mergePanel P B).find? (keyP k) = pickBest k (P ++ B) := mergePanel_find? P B k
  have hpickM : pickBest k (mergePanel P B) = (mergePanel P B).find? (keyP k) := by
    rw [← find?_sortRows_eq_pickBest]
    rw [show sortRows (mergePanel P B) = mergePanel P B from
      List.Sorted.insertionSort_eq (mergePanel_sorted P B)]
  rw [mergePanel_find? (mergePanel P B) B k, pickBest_append, hpickM, hM]
  cases hB : pickBest k B with
  | none => cases hPB : pickBest k (P ++ B) <;> rfl
  | some b =>
    obtain ⟨hbk, hbmem, hbbest⟩ := pickBest_spec k B b hB
    cases hPB : pickBest k (P ++ B) with
    | none =>
      exact absurd hbk ((pickBest_eq_none k (P ++ B)).mp hPB b (List.mem_append_right P hbmem))
    | some s =>
      obtain ⟨hsk, hsmem, hsbest⟩ := pickBest_spec k (P ++ B) s hPB
      have hsb : RankLe s b := hsbest b (List.mem_append_right P hbmem) hbk
      show some (if RankLe b s ∧ ¬ RankLe s b then b else s) = some s
      rw [if_neg (fun h => h.2 hsb)]

/-- `rstrip("/")` removes every trailing slash: the result never ends in a
slash, and appending the removed run of slashes restores the input. -/
lemma rstripSlash_spec (l : Str) :
    (rstripSlash l).getLast? ≠ some '/' ∧
    rstripSlash l ++ List.replicate (l.length - (rstripSlash l).length) '/' = l := by
  constructor
  · rw [rstripSlash, List.getLast?_reverse]
    cases hd : l.reverse.dropWhile (· = '/') with
    | nil => simp
    | cons h t =>
      have hh : ¬ (h = '/') := by
        have := List.head?_dropWhile_not (· = '/') l.reverse
        rw [hd] at this
        simpa using this
      simp [hh]
  · have hsplit : l.reverse.takeWhile (· = '/') ++ l.reverse.dropWhile (· = '/') = l.reverse :=
      List.takeWhile_append_dropWhile _ _
    have hrep : l.reverse.takeWhile (· = '/')
        = List.replicate (l.reverse.takeWhile (· = '/')).length '/' := by
      apply List.eq_replicate_of_mem
      intro c hc
      have := List.mem_takeWhile_imp hc
      simpa using this
    have hlen : l.length - (rstripSlash l).length = (l.reverse.takeWhile (· = '/')).length := by
      have h2 : (l.reverse.takeWhile (· = '/')).length + (l.reverse.dropWhile (· = '/')).length
          = l.length := by
        rw [← List.length_append, hsplit, List.length_reverse]
      rw [rstripSlash, List.length_reverse]
      omega
    rw [hlen, ← hrep]
    rw [show rstripSlash l = (l.reverse.dropWhile (· = '/')).reverse from rfl]
    have h3 : ((l.reverse.dropWhile (· = '/')).reverse ++ l.reverse.takeWhile (· = '/')).reverse
        = l.reverse := by
      rw [List.reverse_append, List.reverse_reverse]
      rw [hrep, List.reverse_replicate, ← hrep]
      exact hsplit
    have h4 := congrArg List.reverse h3
    simpa using h4

/-- Claim C8, amended: the canonicalizer maps `None` and blank strings to
null; on a parseable (already unwrapped) URL it rebuilds from the
lowercased scheme, the lowercased host, and the path stripped of ALL
trailing slashes — not just one — with params, query and fragment dropped.
The last conjunct pins down what "stripped of all trailing slashes"
means. -/
theorem C8_amended :
    (normalize_url none = .ok none) ∧
    (∀ s : Str, unwrap_wayback (some s) = some s → pyStrip s = [] →
      normalize_url (some s) = .ok none) ∧
    (∀ s p, unwrap_wayback (some s) = some s → pyStrip s ≠ [] → pyUrlparse s = .ok p →
      normalize_url (some s)
        = .ok (some (pyUrlunsplit (lowerStr p.scheme) (lowerStr p.netloc)
            (rstripSlash p.path)))) ∧
    (∀ l : Str, (rstripSlash l).getLast? ≠ some '/' ∧
      rstripSlash l ++ List.replicate (l.length - (rstripSlash l).length) '/' = l) := by
  refine ⟨rfl, fun s h1 h2 => ?_, fun s p h1 h2 h3 => ?_, rstripSlash_spec⟩
  · unfold normalize_url
    rw [h1]
    show (if pyStrip s = [] then (Except.ok none : Except Str (Option Str))
        else do
          let p ← pyUrlparse s
          Except.ok (some (pyUrlunsplit (lowerStr p.scheme) (lowerStr p.netloc)
            (rstripSlash p.path))))
      = Except.ok none
    rw [if_pos h2]
  · unfold normalize_url
    rw [h1]
    show (if pyStrip s = [] then (Except.ok none : Except Str (Option Str))
        else do
          let q ← pyUrlparse s
          Except.ok (some (pyUrlunsplit (lowerStr q.scheme) (lowerStr q.netloc)
            (rstripSlash q.path))))
      = _
    rw [if_neg h2, h3, ok_bind]

/-- Claim C8, witness: scheme and host lowercased, path case preserved,
both trailing slashes gone, query and fragment dropped. -/
theorem C8_amended_witness :
    normalize_url (some (ofS "HTTP://Ex.com/A/b//?q=1#f"))
      = .ok (some (ofS "http://ex.com/A/b")) := by
  have h := C8_amended.2.2.1 (ofS "HTTP://Ex.com/A/b//?q=1#f")
    ⟨ofS "http", ofS "Ex.com", ofS "/A/b//", [], ofS "q=1", ofS "f"⟩
    (by rfl) (by decide) (by rfl)
  rw [h]
  rfl

/-- Claim C8, counterexample: a path ending in two slashes loses BOTH
(`rstrip("/")` strips the whole run), not exactly one as claimed. -/
theorem C8_counterexample :
    normalize_url (some (ofS "http://h/p//")) = .ok (some (ofS "http://h/p")) ∧
    ofS "http://h/p" ≠ ofS "http://h/p/" := by
  exact ⟨by rfl, by decide⟩

lemma char_toNat_ofNat (n : Nat) (h : n < 55296) : (Char.ofNat n).toNat = n := by
  have hv : n.isValidChar := Or.inl h
  unfold Char.ofNat
  rw [dif_pos hv]
  rfl

lemma char_le_iff (a b : Char) : a ≤ b ↔ a.toNat ≤ b.toNat :=
  ⟨fun h => h, fun h => h⟩

lemma char_eq_iff (a b : Char) : a = b ↔ a.toNat = b.toNat := by
  constructor
  · intro h; rw [h]
  · intro h
    exact Char.ext (UInt32.ext h)

lemma pyLowerChar_toNat_upper (c : Char) (h : 'A' ≤ c ∧ c ≤ 'Z') :
    (pyLowerChar c).toNat = c.toNat + 32 := by
  rw [pyLowerChar, if_pos h]
  have h2 : c.toNat ≤ 90 := (char_le_iff c 'Z').mp h.2
  exact char_toNat_ofNat _ (by omega)

lemma pyLowerChar_eq_self (c : Char) (h : ¬('A' ≤ c ∧ c ≤ 'Z')) : pyLowerChar c = c := by
  rw [pyLowerChar, if_neg h]

lemma pyLowerChar_idem (c : Char) : pyLowerChar (pyLowerChar c) = pyLowerChar c := by
  by_cases h : 'A' ≤ c ∧ c ≤ 'Z'
  · have h1 := pyLowerChar_toNat_upper c h
    have h2 : 65 ≤ c.toNat := (char_le_iff 'A' c).mp h.1
    have h3 : c.toNat ≤ 90 := (char_le_iff c 'Z').mp h.2
    apply pyLowerChar_eq_self
    intro hcon
    have h4 : (65 : Nat) ≤ (pyLowerChar c).toNat := (char_le_iff 'A' _).mp hcon.1
    have h5 : (pyLowerChar c).toNat ≤ 90 := (char_le_iff _ 'Z').mp hcon.2
    omega
  · rw [pyLowerChar_eq_self c h, pyLowerChar_eq_self c h]

lemma lowerStr_idem (l : Str) : lowerStr (lowerStr l) = lowerStr l := by
  rw [lowerStr, lowerStr, List.map_map]
  apply List.map_congr_left
  intro c _
  exact pyLowerChar_idem c

lemma pyLowerChar_eq_iff (c t : Char)
    (ht : ¬(65 ≤ t.toNat ∧ t.toNat ≤ 90) ∧ ¬(97 ≤ t.toNat ∧ t.toNat ≤ 122)) :
    pyLowerChar c = t ↔ c = t := by
  by_cases h : 'A' ≤ c ∧ c ≤ 'Z'
  · have h1 := pyLowerChar_toNat_upper c h
    have h2 : 65 ≤ c.toNat := (char_le_iff 'A' c).mp h.1
    have h3 : c.toNat ≤ 90 := (char_le_iff c 'Z').mp h.2
    constructor
    · intro he
      exfalso
      have h6 := (char_eq_iff _ _).mp he
      omega
    · intro he
      exfalso
      have h6 := (char_eq_iff _ _).mp he
      omega
  · rw [pyLowerChar_eq_self c h]

lemma mem_lowerStr_iff (l : Str) (t : Char)
    (ht : ¬(65 ≤ t.toNat ∧ t.toNat ≤ 90) ∧ ¬(97 ≤ t.toNat ∧ t.toNat ≤ 122)) :
    t ∈ lowerStr l ↔ t ∈ l := by
  rw [lowerStr, List.mem_map]
  constructor
  · rintro ⟨c, hc, he⟩
    rw [(pyLowerChar_eq_iff c t ht).mp he] at hc
    exact hc
  · intro h
    exact ⟨t, h, (pyLowerChar_eq_iff t t ht).mpr rfl⟩

lemma lowerStr_ne_nil (l : Str) (h : l ≠ []) : lowerStr l ≠ [] := by
  rw [lowerStr]
  intro h2
  exact h (List.map_eq_nil_iff.mp h2)

lemma splitAtFirst_eq_none (c : Char) (l : Str) : splitAtFirst c l = none ↔ c ∉ l := by
  induction l with
  | nil => simp [splitAtFirst]
  | cons x xs ih =>
    rw [splitAtFirst]
    by_cases hx : x = c
    · subst hx; simp
    · rw [if_neg hx]
      cases h2 : splitAtFirst c xs with
      | some pr =>
        obtain ⟨a, b⟩ := pr
        have hcx : c ∈ xs := by
          by_contra hno
          rw [ih.mpr hno] at h2
          exact Option.noConfusion h2
        simp [hcx]
      | none =>
        have hnx : c ∉ xs := ih.mp h2
        have hcx : ¬ (c = x) := fun he => hx he.symm
        simp [hnx, hcx]

lemma splitAtFirst_eq_some (c : Char) (l : Str) : ∀ (pre post : Str),
    splitAtFirst c l = some (pre, post) → pre ++ c :: post = l ∧ c ∉ pre := by
  induction l with
  | nil => intro pre post h; exact absurd h (by simp [splitAtFirst])
  | cons x xs ih =>
    intro pre post h
    rw [splitAtFirst] at h
    by_cases hx : x = c
    · rw [if_pos hx] at h
      have h3 := Option.some.inj h
      have h3a : ([] : Str) = pre := congrArg Prod.fst h3
      have h3b : xs = post := congrArg Prod.snd h3
      subst hx
      rw [← h3a, ← h3b]
      exact ⟨rfl, List.not_mem_nil x⟩
    · rw [if_neg hx] at h
      cases h2 : splitAtFirst c xs with
      | none => rw [h2] at h; exact absurd h (by simp)
      | some pr =>
        obtain ⟨a, b⟩ := pr
        rw [h2] at h
        have h3 := Option.some.inj h
        have h3a : x :: a = pre := congrArg Prod.fst h3
        have h3b : b = post := congrArg Prod.snd h3
        obtain ⟨h5, h6⟩ := ih a b h2
        constructor
        · rw [← h3a, ← h3b, List.cons_append, h5]
        · rw [← h3a]
          intro hm
          rcases List.mem_cons.mp hm with hm1 | hm1
          · exact hx hm1.symm
          · exact h6 hm1

lemma splitAtFirst_append (c : Char) (pre post : Str) (h : c ∉ pre) :
    splitAtFirst c (pre ++ c :: post) = some (pre, post) := by
  induction pre with
  | nil => simp [splitAtFirst]
  | cons x xs ih =>
    rw [List.cons_append, splitAtFirst]
    have hx : ¬ (x = c) := fun he => h (List.mem_cons.mpr (Or.inl he.symm))
    rw [if_neg hx, ih (fun hm => h (List.mem_cons_of_mem _ hm))]

lemma takeWhile_append_all (p : Char → Bool) (a b : Str) (ha : ∀ c ∈ a, p c = true) :
    (a ++ b).takeWhile p = a ++ b.takeWhile p := by
  induction a with
  | nil => simp
  | cons x xs ih =>
    rw [List.cons_append, List.takeWhile_cons, if_pos (ha x (List.mem_cons_self x xs)),
      List.cons_append, ih (fun c hc => ha c (List.mem_cons_of_mem _ hc))]

lemma dropWhile_append_all (p : Char → Bool) (a b : Str) (ha : ∀ c ∈ a, p c = true) :
    (a ++ b).dropWhile p = b.dropWhile p := by
  induction a with
  | nil => simp
  | cons x xs ih =>
    rw [List.cons_append, List.dropWhile_cons, if_pos (ha x (List.mem_cons_self x xs)),
      ih (fun c hc => ha c (List.mem_cons_of_mem _ hc))]

lemma rstripSlash_eq_self (l : Str) (h : l.getLast? ≠ some '/') : rstripSlash l = l := by
  rw [rstripSlash]
  have hrev : l.reverse.dropWhile (· = '/') = l.reverse := by
    cases hl : l.reverse with
    | nil => rfl
    | cons x xs =>
      rw [List.dropWhile_cons]
      have hx2 : l.getLast? = some x := by
        rw [← List.head?_reverse, hl]
        rfl
      have hx : ¬(x = '/') := by
        intro he
        exact h (by rw [hx2, he])
      rw [if_neg (by simpa using hx)]
  rw [hrev, List.reverse_reverse]

lemma pyStrip_ne_nil (l : Str) (c : Char) (hc : c ∈ l) (hw : pyWS c = false) :
    pyStrip l ≠ [] := by
  intro h
  rw [pyStrip] at h
  have h2 : (l.dropWhile pyWS).reverse.dropWhile pyWS = [] := by
    have h6 := congrArg List.reverse h
    simpa using h6
  have h3 := List.dropWhile_eq_nil_iff.mp h2
  have h4 : ∀ x ∈ l.dropWhile pyWS, pyWS x = true :=
    fun x hx => h3 x (List.mem_reverse.mpr hx)
  rcases List.mem_append.mp ((List.takeWhile_append_dropWhile pyWS l) ▸ hc) with h5 | h5
  · exact absurd (List.mem_takeWhile_imp h5) (by simp [hw])
  · exact absurd (h4 c h5) (by simp [hw])

lemma lower_isAsciiAlpha (c : Char) (h : isAsciiAlpha c = true) :
    isAsciiAlpha (pyLowerChar c) = true := by
  by_cases hu : 'A' ≤ c ∧ c ≤ 'Z'
  · have h1 := pyLowerChar_toNat_upper c hu
    simp only [isAsciiAlpha, Bool.or_eq_true, Bool.and_eq_true, decide_eq_true_eq]
    left
    have h2 : (65 : Nat) ≤ c.toNat := (char_le_iff 'A' c).mp hu.1
    have h3 : c.toNat ≤ 90 := (char_le_iff c 'Z').mp hu.2
    have ha : ('a' : Char).toNat = 97 := rfl
    have hz : ('z' : Char).toNat = 122 := rfl
    exact ⟨(char_le_iff 'a' _).mpr (by rw [h1, ha]; omega),
           (char_le_iff _ 'z').mpr (by rw [h1, hz]; omega)⟩
  · rw [pyLowerChar_eq_self c hu]
    exact h

lemma lower_isSchemeChar (c : Char) (h : isSchemeChar c = true) :
    isSchemeChar (pyLowerChar c) = true := by
  by_cases hu : 'A' ≤ c ∧ c ≤ 'Z'
  · have halpha : isAsciiAlpha c = true := by
      simp only [isAsciiAlpha, Bool.or_eq_true, Bool.and_eq_true, decide_eq_true_eq]
      right
      exact hu
    have h2 := lower_isAsciiAlpha c halpha
    simp [isSchemeChar, h2]
  · rw [pyLowerChar_eq_self c hu]
    exact h

lemma schemeSplit_eq (u : Str) (pre post : Str) (hsp : splitAtFirst ':' u = some (pre, post)) :
    schemeSplit u
      = if pre ≠ [] ∧ pre.all isSchemeChar = true ∧ isAsciiAlpha (pre.headD ' ') = true
        then (lowerStr pre, post) else ([], u) := by
  unfold schemeSplit
  rw [hsp]

lemma schemeSplit_eq_none (u : Str) (hsp : splitAtFirst ':' u = none) :
    schemeSplit u = ([], u) := by
  unfold schemeSplit
  rw [hsp]

lemma schemeSplit_snd_mem (u : Str) : ∀ c ∈ (schemeSplit u).2, c ∈ u := by
  cases hsp : splitAtFirst ':' u with
  | none => rw [schemeSplit_eq_none u hsp]; exact fun c hc => hc
  | some pr =>
    obtain ⟨pre, post⟩ := pr
    obtain ⟨heq, hnm⟩ := splitAtFirst_eq_some ':' u pre post hsp
    rw [schemeSplit_eq u pre post hsp]
    by_cases hv : pre ≠ [] ∧ pre.all isSchemeChar = true ∧ isAsciiAlpha (pre.headD ' ') = true
    · rw [if_pos hv]
      intro c hc
      rw [← heq]
      exact List.mem_append_right pre (List.mem_cons_of_mem _ hc)
    · rw [if_neg hv]
      exact fun c hc => hc

lemma schemeSplit_props (u : Str) :
    (schemeSplit u).1 = [] ∨
    ((schemeSplit u).1 ≠ [] ∧ (schemeSplit u).1.all isSchemeChar = true ∧
     isAsciiAlpha ((schemeSplit u).1.headD ' ') = true ∧
     lowerStr (schemeSplit u).1 = (schemeSplit u).1) := by
  cases hsp : splitAtFirst ':' u with
  | none => rw [schemeSplit_eq_none u hsp]; exact Or.inl rfl
  | some pr =>
    obtain ⟨pre, post⟩ := pr
    rw [schemeSplit_eq u pre post hsp]
    by_cases hv : pre ≠ [] ∧ pre.all isSchemeChar = true ∧ isAsciiAlpha (pre.headD ' ') = true
    · rw [if_pos hv]
      right
      obtain ⟨h1, h2, h3⟩ := hv
      refine ⟨lowerStr_ne_nil pre h1, ?_, ?_, lowerStr_idem pre⟩
      · show (lowerStr pre).all isSchemeChar = true
        rw [lowerStr, List.all_map]
        rw [List.all_eq_true] at h2 ⊢
        exact fun c hc => lower_isSchemeChar c (h2 c hc)
      · cases pre with
        | nil => exact absurd rfl h1
        | cons x xs =>
          show isAsciiAlpha ((pyLowerChar x :: lowerStr xs).headD ' ') = true
          rw [List.headD_cons]
          rw [List.headD_cons] at h3
          exact lower_isAsciiAlpha x h3
    · rw [if_neg hv]
      exact Or.inl rfl

lemma removeUnsafe_not_mem (m : Str) (c : Char) (hc : c = '\t' ∨ c = '\x0d' ∨ c = '\n') :
    c ∉ removeUnsafe m := by
  intro h
  have h2 := List.of_mem_filter h
  simp at h2
  rcases hc with h3 | h3 | h3 <;> subst h3 <;> simp at h2

lemma pyUrlsplit_ok (url : Str) (p : UrlParts) (h : pyUrlsplit url = .ok p) :
    ¬ bracketMismatch (netlocSplit (schemeSplit (removeUnsafe (lstripC0 url))).2).1 ∧
    p = ⟨(schemeSplit (removeUnsafe (lstripC0 url))).1,
         (netlocSplit (schemeSplit (removeUnsafe (lstripC0 url))).2).1,
         (querySplit (fragSplit (netlocSplit (schemeSplit (removeUnsafe (lstripC0 url))).2).2).1).1,
         [],
         (querySplit (fragSplit (netlocSplit (schemeSplit (removeUnsafe (lstripC0 url))).2).2).1).2,
         (fragSplit (netlocSplit (schemeSplit (removeUnsafe (lstripC0 url))).2).2).2⟩ := by
  unfold pyUrlsplit at h
  by_cases hbr : bracketMismatch (netlocSplit (schemeSplit (removeUnsafe (lstripC0 url))).2).1
  · rw [if_pos hbr] at h
    exact absurd h (by simp)
  · rw [if_neg hbr] at h
    exact ⟨hbr, (Except.ok.inj h).symm⟩

lemma pyUrlsplit_mk (url : Str)
    (h : ¬ bracketMismatch (netlocSplit (schemeSplit (removeUnsafe (lstripC0 url))).2).1) :
    pyUrlsplit url
      = .ok ⟨(schemeSplit (removeUnsafe (lstripC0 url))).1,
         (netlocSplit (schemeSplit (removeUnsafe (lstripC0 url))).2).1,
         (querySplit (fragSplit (netlocSplit (schemeSplit (removeUnsafe (lstripC0 url))).2).2).1).1,
         [],
         (querySplit (fragSplit (netlocSplit (schemeSplit (removeUnsafe (lstripC0 url))).2).2).1).2,
         (fragSplit (netlocSplit (schemeSplit (removeUnsafe (lstripC0 url))).2).2).2⟩ := by
  unfold pyUrlsplit
  rw [if_neg h]

lemma netlocSplit_fst_delim (rest : Str) : ∀ c ∈ (netlocSplit rest).1, isNetlocDelim c = false := by
  unfold netlocSplit
  by_cases h : hasPfx (ofS "//") rest = true
  · rw [if_pos h]
    intro c hc
    have h2 := List.mem_takeWhile_imp hc
    simpa using h2
  · rw [if_neg h]
    intro c hc
    exact absurd hc (List.not_mem_nil c)

lemma netlocSplit_fst_mem (rest : Str) : ∀ c ∈ (netlocSplit rest).1, c ∈ rest := by
  unfold netlocSplit
  by_cases h : hasPfx (ofS "//") rest = true
  · rw [if_pos h]
    intro c hc
    exact List.mem_of_mem_drop (((List.takeWhile_sublist _).mem) hc)
  · rw [if_neg h]
    intro c hc
    exact absurd hc (List.not_mem_nil c)

lemma netlocSplit_snd_mem (rest : Str) : ∀ c ∈ (netlocSplit rest).2, c ∈ rest := by
  unfold netlocSplit
  by_cases h : hasPfx (ofS "//") rest = true
  · rw [if_pos h]
    intro c hc
    exact List.mem_of_mem_drop (((List.dropWhile_sublist _).mem) hc)
  · rw [if_neg h]
    exact fun c hc => hc

lemma fragSplit_fst (l : Str) : '#' ∉ (fragSplit l).1 ∧ ∀ c ∈ (fragSplit l).1, c ∈ l := by
  unfold fragSplit
  cases hsp : splitAtFirst '#' l with
  | none =>
    exact ⟨(splitAtFirst_eq_none '#' l).mp hsp, fun c hc => hc⟩
  | some pr =>
    obtain ⟨a, b⟩ := pr
    obtain ⟨heq, hnm⟩ := splitAtFirst_eq_some '#' l a b hsp
    exact ⟨hnm, fun c hc => heq ▸ List.mem_append_left _ hc⟩

lemma querySplit_fst (l : Str) : '?' ∉ (querySplit l).1 ∧ ∀ c ∈ (querySplit l).1, c ∈ l := by
  unfold querySplit
  cases hsp : splitAtFirst '?' l with
  | none =>
    exact ⟨(splitAtFirst_eq_none '?' l).mp hsp, fun c hc => hc⟩
  | some pr =>
    obtain ⟨a, b⟩ := pr
    obtain ⟨heq, hnm⟩ := splitAtFirst_eq_some '?' l a b hsp
    exact ⟨hnm, fun c hc => heq ▸ List.mem_append_left _ hc⟩

lemma splitParams_fst_mem (l : Str) : ∀ c ∈ (splitParams l).1, c ∈ l := by
  unfold splitParams
  by_cases h : '/' ∈ l
  · rw [if_pos h]
    show ∀ c ∈ (match splitAtFirst ';' (l.reverse.takeWhile (· ≠ '/')).reverse with
      | some (a, b) => ((l.reverse.dropWhile (· ≠ '/')).reverse ++ a, b)
      | none => (l, ([] : Str))).1, c ∈ l
    cases hsp : splitAtFirst ';' (l.reverse.takeWhile (· ≠ '/')).reverse with
    | none => exact fun c hc => hc
    | some pr =>
      obtain ⟨a, b⟩ := pr
      obtain ⟨heq, hnm⟩ := splitAtFirst_eq_some ';' _ a b hsp
      intro c hc
      rcases List.mem_append.mp hc with h1 | h1
      · have h2 : c ∈ l.reverse.dropWhile (· ≠ '/') :=
          List.mem_reverse.mp (by simpa using h1)
        exact List.mem_reverse.mp ((List.dropWhile_sublist _).mem h2)
      · have h2 : c ∈ (l.reverse.takeWhile (· ≠ '/')).reverse :=
          heq ▸ List.mem_append_left _ h1
        have h3 : c ∈ l.reverse.takeWhile (· ≠ '/') := List.mem_reverse.mp (by simpa using h2)
        exact List.mem_reverse.mp ((List.takeWhile_sublist _).mem h3)
  · rw [if_neg h]
    show ∀ c ∈ (match splitAtFirst ';' l with
      | some (a, b) => (a, b)
      | none => (l, ([] : Str))).1, c ∈ l
    cases hsp : splitAtFirst ';' l with
    | none => exact fun c hc => hc
    | some pr =>
      obtain ⟨a, b⟩ := pr
      obtain ⟨heq, hnm⟩ := splitAtFirst_eq_some ';' _ a b hsp
      exact fun c hc => heq ▸ List.mem_append_left _ hc

lemma pyUrlsplit_props (s : Str) (p0 : UrlParts) (h : pyUrlsplit s = .ok p0) :
    (p0.scheme = [] ∨ (p0.scheme ≠ [] ∧ p0.scheme.all isSchemeChar = true ∧
       isAsciiAlpha (p0.scheme.headD ' ') = true ∧ lowerStr p0.scheme = p0.scheme)) ∧
    (∀ c ∈ p0.netloc, isNetlocDelim c = false) ∧
    (∀ c ∈ p0.netloc, c ∈ removeUnsafe (lstripC0 s)) ∧
    ¬ bracketMismatch p0.netloc ∧
    ('#' ∉ p0.path) ∧ ('?' ∉ p0.path) ∧
    (∀ c ∈ p0.path, c ∈ removeUnsafe (lstripC0 s)) := by
  obtain ⟨hbr, hp0⟩ := pyUrlsplit_ok s p0 h
  subst hp0
  refine ⟨schemeSplit_props _, netlocSplit_fst_delim _, ?_, hbr, ?_, ?_, ?_⟩
  · intro c hc
    exact schemeSplit_snd_mem _ c (netlocSplit_fst_mem _ c hc)
  · intro hc
    exact (fragSplit_fst _).1 ((querySplit_fst _).2 '#' hc)
  · intro hc
    exact (querySplit_fst _).1 hc
  · intro c hc
    exact schemeSplit_snd_mem _ c (netlocSplit_snd_mem _ c
      ((fragSplit_fst _).2 c ((querySplit_fst _).2 c hc)))

lemma pyUrlparse_props (s : Str) (p : UrlParts) (h : pyUrlparse s = .ok p) :
    (p.scheme = [] ∨ (p.scheme ≠ [] ∧ p.scheme.all isSchemeChar = true ∧
       isAsciiAlpha (p.scheme.headD ' ') = true ∧ lowerStr p.scheme = p.scheme)) ∧
    (∀ c ∈ p.netloc, isNetlocDelim c = false) ∧
    (∀ c ∈ p.netloc, c ∈ removeUnsafe (lstripC0 s)) ∧
    ¬ bracketMismatch p.netloc ∧
    ('#' ∉ p.path) ∧ ('?' ∉ p.path) ∧
    (∀ c ∈ p.path, c ∈ removeUnsafe (lstripC0 s)) := by
  unfold pyUrlparse at h
  cases hsp : pyUrlsplit s with
  | error e => rw [hsp, err_bind] at h; exact absurd h (by simp)
  | ok p0 =>
    rw [hsp, ok_bind] at h
    obtain ⟨hsch, hnd, hnm, hbr, hh, hq, hpm⟩ := pyUrlsplit_props s p0 hsp
    by_cases hpar : usesParams p0.scheme = true ∧ ';' ∈ p0.path
    · rw [if_pos hpar] at h
      have hp : p = { p0 with
          path := (splitParams p0.path).1
          params := (splitParams p0.path).2 } := by
        have h2 : (Except.ok { p0 with
            path := (splitParams p0.path).1
            params := (splitParams p0.path).2 } : Except Str UrlParts) = .ok p := h
        exact (Except.ok.inj h2).symm
      subst hp
      refine ⟨hsch, hnd, hnm, hbr, ?_, ?_, ?_⟩
      · intro hc
        exact hh (splitParams_fst_mem _ '#' hc)
      · intro hc
        exact hq (splitParams_fst_mem _ '?' hc)
      · intro c hc
        exact hpm c (splitParams_fst_mem _ c hc)
    · rw [if_neg hpar] at h
      have hp : p = p0 := by
        have h2 : (Except.ok p0 : Except Str UrlParts) = .ok p := h
        exact (Except.ok.inj h2).symm
      subst hp
      exact ⟨hsch, hnd, hnm, hbr, hh, hq, hpm⟩

lemma lstripC0_cons (c : Char) (cs : Str) (h : ¬ (c.toNat ≤ 32)) :
    lstripC0 (c :: cs) = c :: cs := by
  rw [lstripC0, List.dropWhile_cons, if_neg (by simpa using h)]

lemma removeUnsafe_eq_self (l : Str)
    (h : ∀ c ∈ l, ¬(c = '\t' ∨ c = '\x0d' ∨ c = '\n')) : removeUnsafe l = l := by
  rw [removeUnsafe]
  apply List.filter_eq_self.mpr
  intro c hc
  simpa using h c hc

lemma head_dropWhile_false (p : Char → Bool) (l : Str) :
    ∀ y, ((l.dropWhile p).head? = some y) → p y = false := by
  induction l with
  | nil => intro y hy; exact absurd hy (by simp)
  | cons c cs ih =>
    intro y hy
    rw [List.dropWhile_cons] at hy
    by_cases hc : p c = true
    · rw [if_pos hc] at hy
      exact ih y hy
    · rw [if_neg hc] at hy
      have h2 : c = y := Option.some.inj hy
      subst h2
      exact Bool.eq_false_iff.mpr hc

lemma rstripSlash_getLast (l : Str) : (rstripSlash l).getLast? ≠ some '/' := by
  rw [rstripSlash, List.getLast?_reverse]
  intro h
  have h2 := head_dropWhile_false (· = '/') l.reverse '/' h
  simp at h2

lemma rstripSlash_subset (l : Str) : ∀ c ∈ rstripSlash l, c ∈ l := by
  intro c hc
  rw [rstripSlash] at hc
  have h2 : c ∈ l.reverse.dropWhile (· = '/') := List.mem_reverse.mp hc
  exact List.mem_reverse.mp ((List.dropWhile_sublist _).mem h2)

lemma hasPfx_single (l : Str) (h : hasPfx (ofS "/") l = true) : ∃ t, l = '/' :: t := by
  cases l with
  | nil => exact absurd h (by decide)
  | cons c cs =>
    have h2 : ('/' = c && hasPfx [] cs) = true := h
    have h3 : '/' = c := by
      have h4 := Bool.and_elim_left h2
      simpa using h4
    exact ⟨cs, by rw [← h3]⟩

lemma schemeChar_not_removed (c : Char) (h : isSchemeChar c = true) :
    ¬(c = '\t' ∨ c = '\x0d' ∨ c = '\n') := by
  rintro (rfl | rfl | rfl) <;> exact absurd h (by decide)

lemma lower_not_delim (c : Char) (h : isNetlocDelim c = false) :
    isNetlocDelim (pyLowerChar c) = false := by
  by_cases hu : 'A' ≤ c ∧ c ≤ 'Z'
  · have h1 := pyLowerChar_toNat_upper c hu
    have h2 : 65 ≤ c.toNat := (char_le_iff 'A' c).mp hu.1
    have h3 : c.toNat ≤ 90 := (char_le_iff c 'Z').mp hu.2
    rw [isNetlocDelim]
    have e1 : ¬ (pyLowerChar c = '/') := by
      intro he; have := (char_eq_iff _ _).mp he
      have hs : ('/' : Char).toNat = 47 := rfl
      omega
    have e2 : ¬ (pyLowerChar c = '?') := by
      intro he; have := (char_eq_iff _ _).mp he
      have hs : ('?' : Char).toNat = 63 := rfl
      omega
    have e3 : ¬ (pyLowerChar c = '#') := by
      intro he; have := (char_eq_iff _ _).mp he
      have hs : ('#' : Char).toNat = 35 := rfl
      omega
    simp [e1, e2, e3]
  · rw [pyLowerChar_eq_self c hu]
    exact h

lemma lower_not_removed (c : Char) (h : ¬(c = '\t' ∨ c = '\x0d' ∨ c = '\n')) :
    ¬(pyLowerChar c = '\t' ∨ pyLowerChar c = '\x0d' ∨ pyLowerChar c = '\n') := by
  rintro (he | he | he)
  · exact h (Or.inl ((pyLowerChar_eq_iff c '\t' (by constructor <;> decide)).mp he))
  · exact h (Or.inr (Or.inl ((pyLowerChar_eq_iff c '\x0d' (by constructor <;> decide)).mp he)))
  · exact h (Or.inr (Or.inr ((pyLowerChar_eq_iff c '\n' (by constructor <;> decide)).mp he)))

lemma lowerStr_scheme_valid (l : Str) (h1 : l ≠ []) (h2 : l.all isSchemeChar = true)
    (h3 : isAsciiAlpha (l.headD ' ') = true) :
    lowerStr l ≠ [] ∧ (lowerStr l).all isSchemeChar = true ∧
    isAsciiAlpha ((lowerStr l).headD ' ') = true := by
  refine ⟨lowerStr_ne_nil l h1, ?_, ?_⟩
  · rw [lowerStr, List.all_map]
    rw [List.all_eq_true] at h2 ⊢
    exact fun c hc => lower_isSchemeChar c (h2 c hc)
  · cases l with
    | nil => exact absurd rfl h1
    | cons x xs =>
      show isAsciiAlpha ((pyLowerChar x :: lowerStr xs).headD ' ') = true
      rw [List.headD_cons]
      rw [List.headD_cons] at h3
      exact lower_isAsciiAlpha x h3

lemma pyUrlunsplit_of_netloc (sch nl pth : Str) (hnl : nl ≠ []) :
    pyUrlunsplit sch nl pth =
      (if sch ≠ [] then
        sch ++ ':' :: (ofS "//" ++ nl ++
          (if pth ≠ [] ∧ ¬ hasPfx (ofS "/") pth then '/' :: pth else pth))
      else ofS "//" ++ nl ++
          (if pth ≠ [] ∧ ¬ hasPfx (ofS "/") pth then '/' :: pth else pth)) := by
  unfold pyUrlunsplit
  rw [if_pos (Or.inl hnl)]

lemma alpha_not_ws (c : Char) (h : isAsciiAlpha c = true) : ¬ (c.toNat ≤ 32) := by
  rw [isAsciiAlpha] at h
  simp only [Bool.or_eq_true, Bool.and_eq_true, decide_eq_true_eq] at h
  have ha : ('a' : Char).toNat = 97 := rfl
  have hA : ('A' : Char).toNat = 65 := rfl
  rcases h with ⟨h1, _⟩ | ⟨h1, _⟩
  · have h2 := (char_le_iff _ _).mp h1; omega
  · have h2 := (char_le_iff _ _).mp h1; omega

lemma v0_chars_kept (nl P1 pth : Str)
    (hnu : ∀ c ∈ nl, ¬(c = '\t' ∨ c = '\x0d' ∨ c = '\n'))
    (hP1mem : ∀ c ∈ P1, c = '/' ∨ c ∈ pth)
    (hpu : ∀ c ∈ pth, ¬(c = '\t' ∨ c = '\x0d' ∨ c = '\n')) :
    ∀ c ∈ ('/' :: '/' :: (nl ++ P1)), ¬(c = '\t' ∨ c = '\x0d' ∨ c = '\n') := by
  intro c hc
  rcases List.mem_cons.mp hc with h | h
  · subst h; decide
  rcases List.mem_cons.mp h with h | h
  · subst h; decide
  rcases List.mem_append.mp h with h | h
  · exact hnu c h
  · rcases hP1mem c h with h2 | h2
    · subst h2; decide
    · exact hpu c h2

lemma schemeSplit_slashhead (rest : Str) :
    schemeSplit ('/' :: rest) = ([], '/' :: rest) := by
  cases hsp : splitAtFirst ':' ('/' :: rest) with
  | none => exact schemeSplit_eq_none _ hsp
  | some pr =>
    obtain ⟨pre, post⟩ := pr
    obtain ⟨heq, hnm⟩ := splitAtFirst_eq_some ':' _ pre post hsp
    rw [schemeSplit_eq _ pre post hsp]
    cases pre with
    | nil =>
      exfalso
      have h2 : ':' :: post = '/' :: rest := heq
      injection h2 with h3 h4
      exact absurd h3 (by decide)
    | cons x xs =>
      have h2 : x :: (xs ++ ':' :: post) = '/' :: rest := heq
      have hx : x = '/' := by injection h2
      have hcond : ¬ ((x :: xs) ≠ [] ∧ (x :: xs).all isSchemeChar = true ∧
          isAsciiAlpha ((x :: xs).headD ' ') = true) := by
        rintro ⟨h1, h4, h5⟩
        rw [List.headD_cons, hx] at h5
        exact absurd h5 (by decide)
      rw [if_neg hcond]

lemma schemeSplit_valid_prefix (sch rest : Str) (hne : sch ≠ [])
    (hall : sch.all isSchemeChar = true) (hhead : isAsciiAlpha (sch.headD ' ') = true) :
    schemeSplit (sch ++ ':' :: rest) = (lowerStr sch, rest) := by
  have hcol : ':' ∉ sch := by
    intro hm
    have h2 := (List.all_eq_true.mp hall) ':' hm
    exact absurd h2 (by decide)
  rw [schemeSplit_eq _ sch rest (splitAtFirst_append ':' sch rest hcol),
    if_pos ⟨hne, hall, hhead⟩]

lemma urlsplit_concrete (u0 sch0 nl P1 : Str)
    (hu : removeUnsafe (lstripC0 u0) = u0)
    (hss : schemeSplit u0 = (sch0, '/' :: '/' :: (nl ++ P1)))
    (hnd : ∀ c ∈ nl, isNetlocDelim c = false)
    (hbr : ¬ bracketMismatch nl)
    (hP1 : P1 = [] ∨ ∃ t, P1 = '/' :: t)
    (hph : '#' ∉ P1) (hpq : '?' ∉ P1) :
    pyUrlsplit u0 = .ok ⟨sch0, nl, P1, [], [], []⟩ := by
  have hpfx : hasPfx (ofS "//") ('/' :: '/' :: (nl ++ P1)) = true := rfl
  have htk : (('/' :: '/' :: (nl ++ P1)).drop 2).takeWhile (fun c => ¬ isNetlocDelim c) = nl := by
    show (nl ++ P1).takeWhile (fun c => ¬ isNetlocDelim c) = nl
    rw [takeWhile_append_all _ nl P1 (fun c hc => by simp [hnd c hc])]
    rcases hP1 with h | ⟨t, ht⟩
    · rw [h, List.takeWhile_nil, List.append_nil]
    · rw [ht, List.takeWhile_cons, if_neg (by decide), List.append_nil]
  have hdw : (('/' :: '/' :: (nl ++ P1)).drop 2).dropWhile (fun c => ¬ isNetlocDelim c) = P1 := by
    show (nl ++ P1).dropWhile (fun c => ¬ isNetlocDelim c) = P1
    rw [dropWhile_append_all _ nl P1 (fun c hc => by simp [hnd c hc])]
    rcases hP1 with h | ⟨t, ht⟩
    · rw [h]; rfl
    · rw [ht, List.dropWhile_cons, if_neg (by decide)]
  have hns : netlocSplit ('/' :: '/' :: (nl ++ P1)) = (nl, P1) := by
    unfold netlocSplit
    rw [if_pos hpfx, htk, hdw]
  have hss1 : (schemeSplit (removeUnsafe (lstripC0 u0))).1 = sch0 := by rw [hu, hss]
  have hss2 : (schemeSplit (removeUnsafe (lstripC0 u0))).2 = '/' :: '/' :: (nl ++ P1) := by
    rw [hu, hss]
  have hns1 : (netlocSplit (schemeSplit (removeUnsafe (lstripC0 u0))).2).1 = nl := by
    rw [hss2, hns]
  have hns2 : (netlocSplit (schemeSplit (removeUnsafe (lstripC0 u0))).2).2 = P1 := by
    rw [hss2, hns]
  have hfs : fragSplit P1 = (P1, []) := by
    unfold fragSplit
    rw [(splitAtFirst_eq_none '#' P1).mpr hph]
  have hqs : querySplit P1 = (P1, []) := by
    unfold querySplit
    rw [(splitAtFirst_eq_none '?' P1).mpr hpq]
  have hfs1 : (fragSplit (netlocSplit (schemeSplit (removeUnsafe (lstripC0 u0))).2).2).1 = P1 := by
    rw [hns2, hfs]
  have hfs2 : (fragSplit (netlocSplit (schemeSplit (removeUnsafe (lstripC0 u0))).2).2).2 = [] := by
    rw [hns2, hfs]
  have hqs1 :
      (querySplit (fragSplit (netlocSplit (schemeSplit (removeUnsafe (lstripC0 u0))).2).2).1).1
        = P1 := by
    rw [hfs1, hqs]
  have hqs2 :
      (querySplit (fragSplit (netlocSplit (schemeSplit (removeUnsafe (lstripC0 u0))).2).2).1).2
        = [] := by
    rw [hfs1, hqs]
  have hbrx : ¬ bracketMismatch (netlocSplit (schemeSplit (removeUnsafe (lstripC0 u0))).2).1 := by
    rw [hns1]; exact hbr
  rw [pyUrlsplit_mk u0 hbrx, hss1, hns1, hqs1, hqs2, hfs2]

lemma pyUrlparse_of_split (s : Str) (p : UrlParts) (hs : pyUrlsplit s = .ok p)
    (hns : ';' ∉ p.path) : pyUrlparse s = .ok p := by
  unfold pyUrlparse
  rw [hs, ok_bind]
  show (if usesParams p.scheme ∧ ';' ∈ p.path then
      pure { p with
        path := (splitParams p.path).1
        params := (splitParams p.path).2 }
    else pure p) = Except.ok p
  rw [if_neg (fun hc => hns hc.2)]
  rfl

lemma reparse_canonical (sch nl pth : Str)
    (hsch : sch = [] ∨ (sch ≠ [] ∧ sch.all isSchemeChar = true ∧
       isAsciiAlpha (sch.headD ' ') = true))
    (hnl : nl ≠ [])
    (hnd : ∀ c ∈ nl, isNetlocDelim c = false)
    (hnu : ∀ c ∈ nl, ¬(c = '\t' ∨ c = '\x0d' ∨ c = '\n'))
    (hbr : ¬ bracketMismatch nl)
    (hph : '#' ∉ pth) (hpq : '?' ∉ pth)
    (hpu : ∀ c ∈ pth, ¬(c = '\t' ∨ c = '\x0d' ∨ c = '\n')) :
    pyUrlsplit (pyUrlunsplit sch nl pth)
      = .ok ⟨lowerStr sch, nl,
          (if pth ≠ [] ∧ ¬ hasPfx (ofS "/") pth then '/' :: pth else pth), [], [], []⟩ := by
  have hP1 : (if pth ≠ [] ∧ ¬ hasPfx (ofS "/") pth then '/' :: pth else pth) = []
      ∨ ∃ t, (if pth ≠ [] ∧ ¬ hasPfx (ofS "/") pth then '/' :: pth else pth) = '/' :: t := by
    by_cases hc : pth ≠ [] ∧ ¬ hasPfx (ofS "/") pth
    · rw [if_pos hc]; exact Or.inr ⟨pth, rfl⟩
    · rw [if_neg hc]
      by_cases he : pth = []
      · exact Or.inl he
      · have h2 : hasPfx (ofS "/") pth = true := by
          by_contra h3
          exact hc ⟨he, h3⟩
        obtain ⟨t, ht⟩ := hasPfx_single pth h2
        exact Or.inr ⟨t, ht⟩
  have hP1mem : ∀ c ∈ (if pth ≠ [] ∧ ¬ hasPfx (ofS "/") pth then '/' :: pth else pth),
      c = '/' ∨ c ∈ pth := by
    by_cases hc : pth ≠ [] ∧ ¬ hasPfx (ofS "/") pth
    · rw [if_pos hc]
      intro c hcm
      rcases List.mem_cons.mp hcm with h | h
      · exact Or.inl h
      · exact Or.inr h
    · rw [if_neg hc]
      exact fun c hcm => Or.inr hcm
  have hP1h : '#' ∉ (if pth ≠ [] ∧ ¬ hasPfx (ofS "/") pth then '/' :: pth else pth) := by
    intro hc
    rcases hP1mem '#' hc with h | h
    · exact absurd h (by decide)
    · exact hph h
  have hP1q : '?' ∉ (if pth ≠ [] ∧ ¬ hasPfx (ofS "/") pth then '/' :: pth else pth) := by
    intro hc
    rcases hP1mem '?' hc with h | h
    · exact absurd h (by decide)
    · exact hpq h
  have hzip : ofS "//" ++ nl ++ (if pth ≠ [] ∧ ¬ hasPfx (ofS "/") pth then '/' :: pth else pth)
      = '/' :: '/' :: (nl ++ (if pth ≠ [] ∧ ¬ hasPfx (ofS "/") pth then '/' :: pth else pth)) := by
    rw [List.append_assoc]
    rfl
  rw [pyUrlunsplit_of_netloc sch nl pth hnl]
  rcases hsch with hs0 | ⟨hne, hall, hhead⟩
  · subst hs0
    rw [if_neg (by simp), hzip]
    refine urlsplit_concrete _ (lowerStr []) nl _ ?_ ?_ hnd hbr hP1 hP1h hP1q
    · rw [lstripC0_cons '/' _ (by decide)]
      exact removeUnsafe_eq_self _ (v0_chars_kept nl _ pth hnu hP1mem hpu)
    · exact schemeSplit_slashhead _
  · rw [if_pos hne, hzip]
    refine urlsplit_concrete _ (lowerStr sch) nl _ ?_ ?_ hnd hbr hP1 hP1h hP1q
    · cases sch with
      | nil => exact absurd rfl hne
      | cons c cs =>
        have hstep : (c :: cs) ++ ':' ::
            ('/' :: '/' :: (nl ++ (if pth ≠ [] ∧ ¬ hasPfx (ofS "/") pth then '/' :: pth else pth)))
            = c :: (cs ++ ':' ::
              ('/' :: '/' :: (nl ++ (if pth ≠ [] ∧ ¬ hasPfx (ofS "/") pth then '/' :: pth else pth)))) := rfl
        rw [hstep]
        rw [List.headD_cons] at hhead
        rw [lstripC0_cons c _ (alpha_not_ws c hhead)]
        apply removeUnsafe_eq_self
        intro x hx
        rcases List.mem_cons.mp hx with h | h
        · rw [h]
          exact schemeChar_not_removed c ((List.all_eq_true.mp hall) c (List.mem_cons_self c cs))
        rcases List.mem_append.mp h with h | h
        · exact schemeChar_not_removed x ((List.all_eq_true.mp hall) x (List.mem_cons_of_mem c h))
        rcases List.mem_cons.mp h with h | h
        · subst h; decide
        · exact v0_chars_kept nl _ pth hnu hP1mem hpu x h
    · cases sch with
      | nil => exact absurd rfl hne
      | cons c cs =>
        rw [List.headD_cons] at hhead
        exact schemeSplit_valid_prefix (c :: cs) _ hne hall (by rw [List.headD_cons]; exact hhead)

lemma rstripSlash_P1 (pth : Str) (hlast : pth.getLast? ≠ some '/') :
    rstripSlash (if pth ≠ [] ∧ ¬ hasPfx (ofS "/") pth then '/' :: pth else pth)
      = (if pth ≠ [] ∧ ¬ hasPfx (ofS "/") pth then '/' :: pth else pth) := by
  by_cases hc : pth ≠ [] ∧ ¬ hasPfx (ofS "/") pth
  · rw [if_pos hc]
    apply rstripSlash_eq_self
    cases hp : pth with
    | nil => exact absurd hp hc.1
    | cons x xs =>
      rw [List.getLast?_cons_cons]
      rw [hp] at hlast
      exact hlast
  · rw [if_neg hc]
    exact rstripSlash_eq_self pth hlast

lemma unsplit_P1_collapse (sch nl pth : Str) (hnl : nl ≠ []) :
    pyUrlunsplit sch nl (if pth ≠ [] ∧ ¬ hasPfx (ofS "/") pth then '/' :: pth else pth)
      = pyUrlunsplit sch nl pth := by
  rw [pyUrlunsplit_of_netloc sch nl pth hnl, pyUrlunsplit_of_netloc sch nl _ hnl]
  have hinner :
      (if (if pth ≠ [] ∧ ¬ hasPfx (ofS "/") pth then '/' :: pth else pth) ≠ [] ∧
          ¬ hasPfx (ofS "/") (if pth ≠ [] ∧ ¬ hasPfx (ofS "/") pth then '/' :: pth else pth)
        then '/' :: (if pth ≠ [] ∧ ¬ hasPfx (ofS "/") pth then '/' :: pth else pth)
        else (if pth ≠ [] ∧ ¬ hasPfx (ofS "/") pth then '/' :: pth else pth))
      = (if pth ≠ [] ∧ ¬ hasPfx (ofS "/") pth then '/' :: pth else pth) := by
    by_cases hc : pth ≠ [] ∧ ¬ hasPfx (ofS "/") pth
    · rw [if_pos hc]
      rw [if_neg ?_]
      rintro ⟨h1, h2⟩
      exact h2 rfl
    · rw [if_neg hc]
      by_cases he : pth = []
      · subst he
        rw [if_neg ?_]
        rintro ⟨h1, h2⟩
        exact h1 rfl
      · have h2 : hasPfx (ofS "/") pth = true := by
          by_contra h3
          exact hc ⟨he, h3⟩
        rw [if_neg ?_]
        rintro ⟨h1, h3⟩
        exact h3 h2
  rw [hinner]

lemma P1_mem (pth : Str) :
    ∀ c ∈ (if pth ≠ [] ∧ ¬ hasPfx (ofS "/") pth then '/' :: pth else pth),
      c = '/' ∨ c ∈ pth := by
  by_cases hc : pth ≠ [] ∧ ¬ hasPfx (ofS "/") pth
  · rw [if_pos hc]
    intro c hcm
    rcases List.mem_cons.mp hcm with h | h
    · exact Or.inl h
    · exact Or.inr h
  · rw [if_neg hc]
    exact fun c hcm => Or.inr hcm

lemma renormalize (sch nl pth : Str)
    (hsch : sch = [] ∨ (sch ≠ [] ∧ sch.all isSchemeChar = true ∧
       isAsciiAlpha (sch.headD ' ') = true))
    (hsl : lowerStr sch = sch)
    (hnl : nl ≠ []) (hnll : lowerStr nl = nl)
    (hnd : ∀ c ∈ nl, isNetlocDelim c = false)
    (hnu : ∀ c ∈ nl, ¬(c = '\t' ∨ c = '\x0d' ∨ c = '\n'))
    (hbr : ¬ bracketMismatch nl)
    (hph : '#' ∉ pth) (hpq : '?' ∉ pth) (hps : ';' ∉ pth)
    (hpu : ∀ c ∈ pth, ¬(c = '\t' ∨ c = '\x0d' ∨ c = '\n'))
    (hlast : pth.getLast? ≠ some '/')
    (hw : searchWaybackAny (pyUrlunsplit sch nl pth) = none) :
    normalize_url (some (pyUrlunsplit sch nl pth)) = .ok (some (pyUrlunsplit sch nl pth)) := by
  have hsemi : ';' ∉ (if pth ≠ [] ∧ ¬ hasPfx (ofS "/") pth then '/' :: pth else pth) := by
    intro hc
    rcases P1_mem pth ';' hc with h | h
    · exact absurd h (by decide)
    · exact hps h
  have hsp := reparse_canonical sch nl pth hsch hnl hnd hnu hbr hph hpq hpu
  have hpp := pyUrlparse_of_split _ _ hsp hsemi
  have hun : unwrap_wayback (some (pyUrlunsplit sch nl pth)) = some (pyUrlunsplit sch nl pth) := by
    show (match searchWaybackAny (pyUrlunsplit sch nl pth) with
      | some g => some g
      | none => some (pyUrlunsplit sch nl pth)) = some (pyUrlunsplit sch nl pth)
    rw [hw]
  have hslash : '/' ∈ pyUrlunsplit sch nl pth := by
    rw [pyUrlunsplit_of_netloc sch nl pth hnl]
    have h2 : '/' ∈ ofS "//" ++ nl ++
        (if pth ≠ [] ∧ ¬ hasPfx (ofS "/") pth then '/' :: pth else pth) :=
      List.mem_append_left _ (List.mem_append_left _ (by decide))
    by_cases hc : sch ≠ []
    · rw [if_pos hc]
      exact List.mem_append_right _ (List.mem_cons_of_mem _ h2)
    · rw [if_neg hc]
      exact h2
  unfold normalize_url
  rw [hun]
  show (if pyStrip (pyUrlunsplit sch nl pth) = [] then Except.ok none
    else do
      let p ← pyUrlparse (pyUrlunsplit sch nl pth)
      Except.ok (some (pyUrlunsplit (lowerStr p.scheme) (lowerStr p.netloc) (rstripSlash p.path))))
    = Except.ok (some (pyUrlunsplit sch nl pth))
  rw [if_neg (pyStrip_ne_nil _ '/' hslash (by decide)), hpp, ok_bind]
  show Except.ok (some (pyUrlunsplit (lowerStr (lowerStr sch)) (lowerStr nl)
      (rstripSlash (if pth ≠ [] ∧ ¬ hasPfx (ofS "/") pth then '/' :: pth else pth))))
    = Except.ok (some (pyUrlunsplit sch nl pth))
  rw [lowerStr_idem sch, hsl, hnll, rstripSlash_P1 pth hlast, unsplit_P1_collapse sch nl pth hnl]

/-- Claim C3, amended: URL canonicalization is NOT idempotent on every
input (see `C3_counterexample`: a doubly archive-wrapped URL needs two
passes, because `unwrap_wayback` strips only one wrapper per call).  It IS
idempotent on every input whose canonical form has an explicit host
(nonempty netloc), carries no remaining `/web/<14 digits>/http(s)://`
archive wrapper, and whose path contains no semicolon: re-running
`normalize_url` on such an output returns it unchanged. -/
theorem C3_amended (u : Option Str) (s : Str) (p : UrlParts)
    (hu : unwrap_wayback u = some s)
    (hst : pyStrip s ≠ [])
    (hp : pyUrlparse s = .ok p)
    (hnl : p.netloc ≠ [])
    (hw : searchWaybackAny
      (pyUrlunsplit (lowerStr p.scheme) (lowerStr p.netloc) (rstripSlash p.path)) = none)
    (hsemi : ';' ∉ p.path) :
    normalize_url u
      = .ok (some (pyUrlunsplit (lowerStr p.scheme) (lowerStr p.netloc) (rstripSlash p.path)))
    ∧ normalize_url
        (some (pyUrlunsplit (lowerStr p.scheme) (lowerStr p.netloc) (rstripSlash p.path)))
      = .ok (some (pyUrlunsplit (lowerStr p.scheme) (lowerStr p.netloc) (rstripSlash p.path))) := by
  constructor
  · unfold normalize_url
    rw [hu]
    show (if pyStrip s = [] then Except.ok none
      else do
        let q ← pyUrlparse s
        Except.ok (some (pyUrlunsplit (lowerStr q.scheme) (lowerStr q.netloc) (rstripSlash q.path))))
      = Except.ok (some (pyUrlunsplit (lowerStr p.scheme) (lowerStr p.netloc) (rstripSlash p.path)))
    rw [if_neg hst, hp, ok_bind]
  · obtain ⟨hsch, hnd, hnm, hbr, hph, hpq, hpm⟩ := pyUrlparse_props s p hp
    have hnu0 : ∀ c ∈ p.netloc, ¬(c = '\t' ∨ c = '\x0d' ∨ c = '\n') := by
      intro c hc h
      exact removeUnsafe_not_mem (lstripC0 s) c h (hnm c hc)
    have hsch2 : lowerStr p.scheme = [] ∨ (lowerStr p.scheme ≠ [] ∧
        (lowerStr p.scheme).all isSchemeChar = true ∧
        isAsciiAlpha ((lowerStr p.scheme).headD ' ') = true) := by
      rcases hsch with h | ⟨h1, h2, h3, _⟩
      · exact Or.inl (by rw [h]; rfl)
      · exact Or.inr (lowerStr_scheme_valid p.scheme h1 h2 h3)
    have hnd2 : ∀ c ∈ lowerStr p.netloc, isNetlocDelim c = false := by
      intro c hc
      obtain ⟨c0, hc0, he⟩ := List.mem_map.mp hc
      rw [← he]
      exact lower_not_delim c0 (hnd c0 hc0)
    have hnu2 : ∀ c ∈ lowerStr p.netloc, ¬(c = '\t' ∨ c = '\x0d' ∨ c = '\n') := by
      intro c hc
      obtain ⟨c0, hc0, he⟩ := List.mem_map.mp hc
      rw [← he]
      exact lower_not_removed c0 (hnu0 c0 hc0)
    have hbr2 : ¬ bracketMismatch (lowerStr p.netloc) := by
      intro h
      apply hbr
      have hlb : ('[' ∈ lowerStr p.netloc) ↔ ('[' ∈ p.netloc) :=
        mem_lowerStr_iff _ '[' (by constructor <;> decide)
      have hrb : (']' ∈ lowerStr p.netloc) ↔ (']' ∈ p.netloc) :=
        mem_lowerStr_iff _ ']' (by constructor <;> decide)
      unfold bracketMismatch at h ⊢
      rcases h with ⟨h1, h2⟩ | ⟨h1, h2⟩
      · exact Or.inl ⟨hlb.mp h1, fun hm => h2 (hrb.mpr hm)⟩
      · exact Or.inr ⟨hrb.mp h1, fun hm => h2 (hlb.mpr hm)⟩
    exact renormalize (lowerStr p.scheme) (lowerStr p.netloc) (rstripSlash p.path)
      hsch2 (lowerStr_idem _) (lowerStr_ne_nil _ hnl) (lowerStr_idem _) hnd2 hnu2 hbr2
      (fun hc => hph (rstripSlash_subset _ '#' hc))
      (fun hc => hpq (rstripSlash_subset _ '?' hc))
      (fun hc => hsemi (rstripSlash_subset _ ';' hc))
      (fun c hc h => removeUnsafe_not_mem (lstripC0 s) c h (hpm c (rstripSlash_subset _ c hc)))
      (rstripSlash_getLast _) hw

/-- Claim C3 witness: a concrete mixed-case URL with query and fragment;
one pass canonicalizes it and a second pass leaves the result unchanged. -/
theorem C3_amended_witness :
    normalize_url (some (ofS "HTTPS://Example.COM/Path/?q=1#f"))
      = .ok (some (ofS "https://example.com/Path"))
    ∧ normalize_url (some (ofS "https://example.com/Path"))
      = .ok (some (ofS "https://example.com/Path")) := by
  have h := C3_amended (some (ofS "HTTPS://Example.COM/Path/?q=1#f"))
    (ofS "HTTPS://Example.COM/Path/?q=1#f")
    ⟨ofS "https", ofS "Example.COM", ofS "/Path/", [], ofS "q=1", ofS "f"⟩
    rfl (by decide) rfl (by decide) rfl (by decide)
  exact h

/-- Claim C3 counterexample: a doubly archive-wrapped URL.  One
`normalize_url` pass strips only the outer wrapper (the regex group of the
leftmost `/web/<ts>/` match still contains the inner wrapper), so a second
pass changes the result again — canonicalization is not idempotent. -/
theorem C3_counterexample :
    normalize_url (some (ofS
        "https://web.archive.org/web/20230101000000/https://web.archive.org/web/20240101000000/https://x.com/page"))
      = .ok (some (ofS "https://web.archive.org/web/20240101000000/https://x.com/page"))
    ∧ normalize_url (some (ofS "https://web.archive.org/web/20240101000000/https://x.com/page"))
      = .ok (some (ofS "https://x.com/page"))
    ∧ ofS "https://web.archive.org/web/20240101000000/https://x.com/page"
      ≠ ofS "https://x.com/page" := by
  refine ⟨rfl, rfl, by decide⟩
